import Mathlib

/-!
# Manchester bit-bang transceiver

A shallow embedding of `drivers/manchester/manchester_bitbang.c` (with the
structures of `manchester_bitbang.h` and `zephyr/drivers/manchester.h`) and
the properties of its timing table, its transmitter and its edge-driven
receiver.

Conventions of the embedding.

* Machine integers are naturals (or integers, for a C `int`) with the
  wrap-around written out: `u8`, `u16`, `u32`, `u64` truncate to the width of
  the C type that stores the value.
* The clock is not read by the model: `k_cycle_get_32()` is the argument `now`
  of the receiver and `sys_clock_hw_cycles_per_sec()` is the argument `cps` of
  the configurator.
* The I/O capability is observed, not executed: the transmitter returns the
  list of calls it makes (`Ev`), in order.
-/

namespace Manchester

/-! ## Machine arithmetic -/

/-- Truncation to `uint8_t`. -/
def u8 (x : Nat) : Nat := x % 256

/-- Truncation to `uint16_t`. -/
def u16 (x : Nat) : Nat := x % 65536

/-- Truncation to `uint32_t`. -/
def u32 (x : Nat) : Nat := x % 4294967296

/-- Truncation to `uint64_t`. -/
def u64 (x : Nat) : Nat := x % 18446744073709551616

/-- Subtraction of two `uint32_t` values, `a - b` in C. -/
def sub32 (a b : Nat) : Nat := (u32 a + 4294967296 - u32 b) % 4294967296

/-- The C operator `!` on an `int`. -/
def lnot (x : Int) : Int := if x = 0 then 1 else 0

/-- The C operator `!` applied to the `uint8_t` field `last_bit`. -/
def lnot8 (x : Nat) : Nat := if x = 0 then 1 else 0

/-! ## Data model (`manchester_bitbang.h`, `manchester.h`) -/

/-- The calls made on the I/O capability and the busy-waits in between, in the
order in which the transmitter makes them. -/
inductive Ev where
  | set_tx (state : Int)
  | delay (cycles : Nat)
  | enable_rx
  | disable_rx
  deriving DecidableEq

/-- The `struct manchester_bitbang_io` of the header: the line functions given
by the user of the library.  `set_tx` is observed through `Ev`; of the three
functions that return an `int` the model keeps the value they return. -/
structure manchester_bitbang_io where
  get_rx : Int
  enable_rx : Int
  disable_rx : Int

/-- The `struct manchester_msg` of `manchester.h`: a buffer of bytes, its
length and flags. -/
structure manchester_msg where
  buf : List Nat
  len : Nat
  flags : Nat

/-- The `struct manchester_bitbang` of the header (the untyped `io_context`
pointer is left out). -/
structure manchester_bitbang where
  io : manchester_bitbang_io
  delays : Fin 5 → Nat
  last : Nat
  rx_buf : Nat
  rx_buf_rdy : Nat
  received_half_bits : Nat
  last_bit : Nat

def T_HALF_BIT : Fin 5 := 0
def T_FULL_BIT : Fin 5 := 1
def T_3TO4_BIT : Fin 5 := 2
def T_STOP_BIT : Fin 5 := 3
def T_BACKWARD_STOP_MIN : Fin 5 := 4

/-! ## Timing configuration -/

/-- Modelled from the spec: the constant `NSEC_PER_SEC` of the kernel headers,
which are not part of the sources at hand; nanoseconds per second. -/
def NSEC_PER_SEC : Nat := 1000000000

/-- Modelled from the spec: the constant `USEC_PER_SEC` of the kernel headers,
which are not part of the sources at hand; microseconds per second. -/
def USEC_PER_SEC : Nat := 1000000

/-- The macro `NS_TO_SYS_CLOCK_HW_CYCLES(ns)`, computed in `uint64_t`;
`cps` is the value of `sys_clock_hw_cycles_per_sec()`. -/
def NS_TO_SYS_CLOCK_HW_CYCLES (cps ns : Nat) : Nat :=
  u64 (u64 (u64 cps * ns) / NSEC_PER_SEC + 1)

/-- The macro `US_TO_SYS_CLOCK_HW_CYCLES(us)`, computed in `uint64_t`. -/
def US_TO_SYS_CLOCK_HW_CYCLES (cps us : Nat) : Nat :=
  u64 (u64 (u64 cps * us) / USEC_PER_SEC + 1)

/-- The assignment `context->delays[i] = v` to a `uint32_t` entry. -/
def set_delay (context : manchester_bitbang) (i : Fin 5) (v : Nat) : manchester_bitbang :=
  { context with delays := fun j => if j = i then u32 v else context.delays j }

/-- The function `manchester_bitbang_configure`: the returned `int` and the
context after the five assignments. -/
def manchester_bitbang_configure (cps : Nat) (context : manchester_bitbang) :
    Int × manchester_bitbang :=
  let context := set_delay context T_HALF_BIT (NS_TO_SYS_CLOCK_HW_CYCLES cps 416667)
  let context := set_delay context T_3TO4_BIT (NS_TO_SYS_CLOCK_HW_CYCLES cps 625000)
  let context := set_delay context T_FULL_BIT (NS_TO_SYS_CLOCK_HW_CYCLES cps 833333)
  let context := set_delay context T_STOP_BIT (NS_TO_SYS_CLOCK_HW_CYCLES cps 5500000)
  let context := set_delay context T_BACKWARD_STOP_MIN (US_TO_SYS_CLOCK_HW_CYCLES cps 5500)
  (0, context)

/-! ## Receiver -/

/-- The function `manchester_bitbang_toggle_rx`; `now` is the value read from
`k_cycle_get_32()`. -/
def manchester_bitbang_toggle_rx (context : manchester_bitbang) (now : Nat) :
    manchester_bitbang :=
  let diff := sub32 now context.last
  let context : manchester_bitbang :=
    if diff > context.delays T_BACKWARD_STOP_MIN then
      { context with rx_buf := 0, rx_buf_rdy := 0, received_half_bits := 0, last_bit := 1 }
    else if diff > context.delays T_3TO4_BIT then
      let c1 := { context with rx_buf := u16 (context.rx_buf <<< 1) }
      let c2 := { c1 with last_bit := lnot8 c1.last_bit }
      let c3 := { c2 with rx_buf := u16 (c2.rx_buf ||| c2.last_bit) }
      { c3 with received_half_bits := u8 (c3.received_half_bits + 2) }
    else
      let c1 := { context with received_half_bits := u8 (context.received_half_bits + 1) }
      if c1.received_half_bits % 2 = 1 then
        let c2 := { c1 with rx_buf := u16 (c1.rx_buf <<< 1) }
        { c2 with rx_buf := u16 (c2.rx_buf ||| c2.last_bit) }
      else c1
  let context : manchester_bitbang :=
    if context.received_half_bits ≥ 17 then { context with rx_buf_rdy := 1 } else context
  { context with last := now }

/-! ## Transmitter -/

/-- The function `manchester_set_tx`: one call of the `set_tx` capability. -/
def manchester_set_tx (_context : manchester_bitbang) (state : Int) : List Ev :=
  [Ev.set_tx state]

/-- The function `manchester_delay`, seen from the line: a busy-wait of
`cycles_to_wait` ticks. -/
def manchester_delay (cycles_to_wait : Nat) : List Ev :=
  [Ev.delay cycles_to_wait]

/-- The function `write_bit`. -/
def write_bit (context : manchester_bitbang) (bit : Int) : List Ev :=
  manchester_set_tx context (lnot bit) ++
  manchester_delay (context.delays T_HALF_BIT) ++
  manchester_set_tx context bit ++
  manchester_delay (context.delays T_HALF_BIT)

/-- The function `write_idle`. -/
def write_idle (context : manchester_bitbang) : List Ev :=
  manchester_set_tx context 1 ++
  manchester_delay (context.delays T_STOP_BIT)

/-- The `do ... while (mask >>= 1)` loop of `write_byte`, entered with the
current value of `mask`. -/
def write_byte_loop (context : manchester_bitbang) (data mask : Nat) : List Ev :=
  write_bit context ((data &&& mask : Nat) : Int) ++
    (if u8 (mask >>> 1) ≠ 0 then write_byte_loop context data (u8 (mask >>> 1)) else [])
termination_by mask
decreasing_by
  simp only [u8, Nat.shiftRight_eq_div_pow] at *
  omega

/-- The function `write_byte`. -/
def write_byte (context : manchester_bitbang) (data : Nat) : List Ev :=
  write_byte_loop context data (u8 (1 <<< 7))

/-- The function `manchester_enable_rx`: the capability is called and what it
returns is dropped (the C function is `void`). -/
def manchester_enable_rx (_context : manchester_bitbang) : List Ev :=
  [Ev.enable_rx]

/-- The function `manchester_disable_rx`: the capability is called and what it
returns is dropped (the C function is `void`). -/
def manchester_disable_rx (_context : manchester_bitbang) : List Ev :=
  [Ev.disable_rx]

/-- The function `manchester_bitbang_transfer`: the returned `int` and the
calls made.  `*msg->buf` is the first byte of the buffer. -/
def manchester_bitbang_transfer (context : manchester_bitbang) (msg : manchester_msg)
    (_num_msgs : Nat) (device_address : Nat) : Int × List Ev :=
  (0,
    manchester_disable_rx context ++
    write_bit context 1 ++
    write_byte context device_address ++
    write_byte context (msg.buf.headD 0) ++
    write_idle context ++
    manchester_enable_rx context)

/-! ## The line between a transmitter and a receiver -/

/-- The edges seen on the line while the calls `es` are made, the line being at
level `lvl` and the clock at `t` before the first call: a `set_tx` with a
level other than the present one is an edge at the present time, a delay of `n`
ticks moves the 32-bit clock by `n`. A state other than zero is the high level. -/
def line_edges : Bool → Nat → List Ev → List Nat
  | _, _, [] => []
  | lvl, t, Ev.set_tx state :: es =>
      if decide (state ≠ 0) = lvl then line_edges lvl t es
      else t :: line_edges (decide (state ≠ 0)) t es
  | lvl, t, Ev.delay n :: es => line_edges lvl (u32 (t + n)) es
  | lvl, t, Ev.enable_rx :: es => line_edges lvl t es
  | lvl, t, Ev.disable_rx :: es => line_edges lvl t es

/-- The receiver called once for each edge timestamp, in order. -/
def feed_edges (context : manchester_bitbang) (ts : List Nat) : manchester_bitbang :=
  ts.foldl manchester_bitbang_toggle_rx context

/-! ## The receiver step as the specification tabulates it -/

/-- The step of the receiver written from the table of the specification: the
elapsed time is classified first, and each class gives all five fields of the
next state at once.  The operator `+=` on the 8-bit counter is the one of C: it
wraps at 256. -/
def toggle_rx_table (s : manchester_bitbang) (now : Nat) : manchester_bitbang :=
  let elapsed := (((now : Int) - (s.last : Int)) % 4294967296).toNat
  if elapsed > s.delays T_BACKWARD_STOP_MIN then
    { s with rx_buf := 0, rx_buf_rdy := 0, received_half_bits := 0, last_bit := 1, last := now }
  else if elapsed > s.delays T_3TO4_BIT then
    let flipped := if s.last_bit = 0 then 1 else 0
    let count := (s.received_half_bits + 2) % 256
    { s with
      last_bit := flipped
      rx_buf := ((s.rx_buf <<< 1) ||| flipped) % 2 ^ 16
      received_half_bits := count
      rx_buf_rdy := if count ≥ 17 then 1 else s.rx_buf_rdy
      last := now }
  else
    let count := (s.received_half_bits + 1) % 256
    { s with
      received_half_bits := count
      rx_buf := if count % 2 = 1 then ((s.rx_buf <<< 1) ||| s.last_bit) % 2 ^ 16 else s.rx_buf
      rx_buf_rdy := if count ≥ 17 then 1 else s.rx_buf_rdy
      last := now }

/-! ## The receiver seen through the class of each interval -/

/-- The three classes of an elapsed time. -/
inductive Branch where
  | reset
  | long
  | short
  deriving DecidableEq

/-- The class of an elapsed time `diff` under a table of delays: the two
comparisons of `manchester_bitbang_toggle_rx`, in its order. -/
def delay_branch (delays : Fin 5 → Nat) (diff : Nat) : Branch :=
  if diff > delays T_BACKWARD_STOP_MIN then Branch.reset
  else if diff > delays T_3TO4_BIT then Branch.long
  else Branch.short

/-- The branch that `manchester_bitbang_toggle_rx` takes at time `now`. -/
def rx_branch (context : manchester_bitbang) (now : Nat) : Branch :=
  delay_branch context.delays (sub32 now context.last)

/-- The four receiver fields that a frame is read from. -/
structure rx_fields where
  rx_buf : Nat
  rx_buf_rdy : Nat
  received_half_bits : Nat
  last_bit : Nat
  deriving DecidableEq

/-- The receiver fields of a context. -/
def rx_of (context : manchester_bitbang) : rx_fields :=
  { rx_buf := context.rx_buf, rx_buf_rdy := context.rx_buf_rdy,
    received_half_bits := context.received_half_bits, last_bit := context.last_bit }

/-- The ready test at the end of `manchester_bitbang_toggle_rx`. -/
def rx_ready (f : rx_fields) : rx_fields :=
  if f.received_half_bits ≥ 17 then { f with rx_buf_rdy := 1 } else f

/-- What each branch of `manchester_bitbang_toggle_rx`, followed by its ready
test, does to the receiver fields. -/
def rx_update (k : Branch) (f : rx_fields) : rx_fields :=
  match k with
  | Branch.reset =>
      rx_ready { rx_buf := 0, rx_buf_rdy := 0, received_half_bits := 0, last_bit := 1 }
  | Branch.long =>
      rx_ready
        { rx_buf := u16 (u16 (f.rx_buf <<< 1) ||| lnot8 f.last_bit),
          rx_buf_rdy := f.rx_buf_rdy,
          received_half_bits := u8 (f.received_half_bits + 2),
          last_bit := lnot8 f.last_bit }
  | Branch.short =>
      rx_ready
        (if u8 (f.received_half_bits + 1) % 2 = 1 then
          { rx_buf := u16 (u16 (f.rx_buf <<< 1) ||| f.last_bit),
            rx_buf_rdy := f.rx_buf_rdy,
            received_half_bits := u8 (f.received_half_bits + 1),
            last_bit := f.last_bit }
        else { f with received_half_bits := u8 (f.received_half_bits + 1) })

/-- The classes of the intervals of a list of timestamps, the previous edge
being at `last`. -/
def branches (delays : Fin 5 → Nat) : Nat → List Nat → List Branch
  | _, [] => []
  | last, t :: ts => delay_branch delays (sub32 t last) :: branches delays t ts

/-- The receiver fields after the intervals `ks`. -/
def rx_run (f : rx_fields) (ks : List Branch) : rx_fields :=
  ks.foldl (fun g k => rx_update k g) f

/-! ## The transmitter seen through the gaps between its edges -/

/-- The calls of `write_bit` for each argument of a list, in order. -/
def write_bits (context : manchester_bitbang) : List Int → List Ev
  | [] => []
  | bit :: bits => write_bit context bit ++ write_bits context bits

/-- The eight arguments that `write_byte` passes to `write_bit`. -/
def byte_bits (data : Nat) : List Int :=
  [((data &&& 128 : Nat) : Int), ((data &&& 64 : Nat) : Int), ((data &&& 32 : Nat) : Int),
   ((data &&& 16 : Nat) : Int), ((data &&& 8 : Nat) : Int), ((data &&& 4 : Nat) : Int),
   ((data &&& 2 : Nat) : Int), ((data &&& 1 : Nat) : Int)]

/-- The gaps, in half-bits, between the edges of a run of bits: a bit at the
level the line is at gives two edges one half-bit apart, a bit at the other
level gives one edge two half-bits after the previous one. -/
def gaps : Bool → List Int → List Nat
  | _, [] => []
  | lvl, bit :: bits =>
      (if decide (bit ≠ 0) = lvl then [1, 1] else [2]) ++ gaps (decide (bit ≠ 0)) bits

/-- The timestamps that follow the edge at `last` with the gaps `gs`, for a
half-bit of `h` ticks, on the 32-bit clock. -/
def stamps (h : Nat) : Nat → List Nat → List Nat
  | _, [] => []
  | last, g :: gs => u32 (last + g * h) :: stamps h (u32 (last + g * h)) gs

/-- The last of the timestamps `stamps h last gs`, or `last` when there is none. -/
def end_stamp (h : Nat) (last : Nat) (gs : List Nat) : Nat :=
  gs.foldl (fun l g => u32 (l + g * h)) last

/-- The level of the line after a run of bits. -/
def end_level (lvl : Bool) (bits : List Int) : Bool :=
  bits.foldl (fun _ bit => decide (bit ≠ 0)) lvl

/-- The class of a gap of one or of two half-bits. -/
def gap_branch (g : Nat) : Branch :=
  if g = 1 then Branch.short else Branch.long

/-- A timestamp moved by `d` ticks on the 32-bit clock. -/
def shift_stamp (t : Nat) (d : Int) : Nat :=
  (((t : Int) + d) % 4294967296).toNat

/-- The timestamps `ts`, each moved by the entry of `ds` at its place. -/
def jitter (ts : List Nat) (ds : List Int) : List Nat :=
  List.zipWith shift_stamp ts ds

/-- A context as static storage holds it before the driver runs: all zero. -/
def zero_context : manchester_bitbang :=
  { io := { get_rx := 0, enable_rx := 0, disable_rx := 0 },
    delays := fun _ => 0, last := 0, rx_buf := 0, rx_buf_rdy := 0,
    received_half_bits := 0, last_bit := 0 }

/-- The value, 0 or 1, of the level that `set_tx` is given for a bit. -/
def bit_value (bit : Int) : Nat := if bit ≠ 0 then 1 else 0

/-- One decoded bit: the buffer shifted by one place with the bit in the low
place, two more half-bits counted, the ready test on the new count. -/
def commit (f : rx_fields) (bit : Int) : rx_fields :=
  { rx_buf := u16 (u16 (f.rx_buf <<< 1) ||| bit_value bit),
    rx_buf_rdy := if u8 (f.received_half_bits + 2) ≥ 17 then 1 else f.rx_buf_rdy,
    received_half_bits := u8 (f.received_half_bits + 2),
    last_bit := bit_value bit }

/-- The context after `manchester_bitbang_configure` on a 32768 Hz clock. -/
def clock_32k_context : manchester_bitbang :=
  (manchester_bitbang_configure 32768 zero_context).2

/-- A receiver on a 32768 Hz clock that holds a complete frame: the ready flag
is set and 17 half-bits are counted. -/
def busy_context : manchester_bitbang :=
  { clock_32k_context with
    last := 5000, rx_buf := 0x1A5, rx_buf_rdy := 1, received_half_bits := 17, last_bit := 1 }

/-- A message of one data byte, `0xFF`. -/
def one_byte_msg : manchester_msg :=
  { buf := [0xFF], len := 1, flags := 0 }

/-! ## Definitions for the timing table and for the transfer sequence -/

/-- The ceiling of `x / d`. -/
def ceil_div (x d : Nat) : Nat := (x + d - 1) / d

/-- A receiver that holds a complete frame, configured for a 32768 Hz clock. -/
def jitter_context : manchester_bitbang :=
  (manchester_bitbang_configure 32768 busy_context).2

/-- The steps of a transfer in the words of the specification: reception off
or on, the line set to a level, a wait of some ticks. -/
inductive Act where
  | disable_rx
  | level (high : Bool)
  | wait (ticks : Nat)
  | enable_rx
  deriving DecidableEq

/-- The step that a call stands for: a `set_tx` with a state other than zero
sets the high level. -/
def act_of : Ev → Act
  | Ev.set_tx state => Act.level (decide (state ≠ 0))
  | Ev.delay cycles => Act.wait cycles
  | Ev.enable_rx => Act.enable_rx
  | Ev.disable_rx => Act.disable_rx

/-- One Manchester bit in the words of the specification: the inverse of the
bit for one half-bit, then the bit for one half-bit. -/
def spec_bit (half_bit : Nat) (v : Bool) : List Act :=
  [Act.level (!v), Act.wait half_bit, Act.level v, Act.wait half_bit]

/-- The eight bits of a byte, most significant first. -/
def spec_byte (half_bit : Nat) (x : Nat) : List Act :=
  spec_bit half_bit (x.testBit 7) ++ spec_bit half_bit (x.testBit 6) ++
  spec_bit half_bit (x.testBit 5) ++ spec_bit half_bit (x.testBit 4) ++
  spec_bit half_bit (x.testBit 3) ++ spec_bit half_bit (x.testBit 2) ++
  spec_bit half_bit (x.testBit 1) ++ spec_bit half_bit (x.testBit 0)

/-- The ordered sequence of a transfer in the words of the specification. -/
def spec_transfer (half_bit idle : Nat) (a d : Nat) : List Act :=
  [Act.disable_rx] ++ spec_bit half_bit true ++ spec_byte half_bit a ++ spec_byte half_bit d ++
    [Act.level true, Act.wait idle] ++ [Act.enable_rx]

/-- Whether a call is a `set_tx`. -/
def is_set_tx : Ev → Bool
  | Ev.set_tx _ => true
  | _ => false

/-- The ticks that a call waits: those of a delay, none for the others. -/
def delay_of : Ev → Nat
  | Ev.delay cycles => cycles
  | _ => 0

/-- A context whose `enable_rx` capability fails with `-EIO`. -/
def failing_rx_context : manchester_bitbang :=
  { clock_32k_context with io := { get_rx := 1, enable_rx := -5, disable_rx := 0 } }

/-! ## The driver above the bit-bang library, and the count of half-bits -/

/-- The function `manchester_gpio_transfer` of `manchester_gpio.c`: the call of
`manchester_bitbang_transfer` on the bit-bang data of the device, between the
lock and the unlock of its mutex (not modelled). -/
def manchester_gpio_transfer (context : manchester_bitbang) (msgs : manchester_msg)
    (num_msgs : Nat) (device_address : Nat) : Int × List Ev :=
  manchester_bitbang_transfer context msgs num_msgs device_address

/-- The function `manchester_write` of `manchester.h`, with the `transfer` entry
of the driver API bound to `manchester_gpio_transfer`: one message is built
from `buf` and `num_bytes` (its `flags` are not set by the C code and never
read; they are 0 here) and `num_bytes` is passed where the API takes the number
of messages. -/
def manchester_write (context : manchester_bitbang) (addr : Nat) (buf : List Nat)
    (num_bytes : Nat) : Int × List Ev :=
  manchester_gpio_transfer context { buf := buf, len := num_bytes, flags := 0 } num_bytes addr

/-- The half-bits that the intervals of a list stand for: one for a short
interval, two for a long one. -/
def half_bits_of : List Branch → Nat
  | [] => 0
  | Branch.short :: ks => 1 + half_bits_of ks
  | Branch.long :: ks => 2 + half_bits_of ks
  | Branch.reset :: ks => half_bits_of ks

/-! ## The busy-wait over clock readings -/

/-- The `while` loop of `manchester_delay` over the readings of
`k_cycle_get_32()` that follow the one kept in `start`: each turn takes one
reading and goes on while `reading - start`, in `uint32_t`, is below
`cycles_to_wait`. The result is the place, from 0, of the reading at which the
loop ends, or `none` when the readings end before the loop does. -/
def manchester_delay_loop (start cycles_to_wait : Nat) : List Nat → Option Nat
  | [] => none
  | r :: rs =>
      if sub32 r start < cycles_to_wait then
        Option.map (fun i => i + 1) (manchester_delay_loop start cycles_to_wait rs)
      else some 0

/-- The function `manchester_delay` run on a sequence of clock readings: the
first reading is stored in `start`, the loop takes the following ones. -/
def manchester_delay_readings (cycles_to_wait : Nat) : List Nat → Option Nat
  | [] => none
  | start :: rs => manchester_delay_loop start cycles_to_wait rs

/-! ## Machine arithmetic: lemmas -/

theorem sub32_eq_emod (a b : Nat) :
    sub32 a b = (((a : Int) - (b : Int)) % 4294967296).toNat := by
  unfold sub32 u32
  omega

theorem or_mod_two_pow (a b n : Nat) : (a ||| b) % 2 ^ n = a % 2 ^ n ||| b % 2 ^ n := by
  apply Nat.eq_of_testBit_eq
  intro i
  simp only [Nat.testBit_mod_two_pow, Nat.testBit_or]
  by_cases h : i < n <;> simp [h]

theorem u16_or_u16 (a b : Nat) : u16 (u16 a ||| b) = (a ||| b) % 2 ^ 16 := by
  unfold u16
  have h : (65536 : Nat) = 2 ^ 16 := by norm_num
  rw [h, or_mod_two_pow, or_mod_two_pow, Nat.mod_mod]

/-! ## The receiver step -/

/-- C3. One call of `manchester_bitbang_toggle_rx` gives, for every context and
every timestamp, the state of the table of the specification: with
`elapsed = (now - last) mod 2^32`, a reset above `resetThreshold`, a long
interval above `shortLongBoundary` (complemented bit shifted in, count plus
two), a short interval otherwise (count plus one, the bit shifted in when the
new count is odd), then the ready flag from 17 half-bits on and `last = now`. -/
theorem toggle_rx_eq_table (context : manchester_bitbang) (now : Nat) :
    manchester_bitbang_toggle_rx context now = toggle_rx_table context now := by
  unfold manchester_bitbang_toggle_rx toggle_rx_table
  simp only [← sub32_eq_emod, u16_or_u16, lnot8, u8]
  split_ifs <;> simp_all

theorem toggle_rx_of_reset (context : manchester_bitbang) (now : Nat)
    (h : sub32 now context.last > context.delays T_BACKWARD_STOP_MIN) :
    manchester_bitbang_toggle_rx context now =
      { context with
        rx_buf := 0, rx_buf_rdy := 0, received_half_bits := 0, last_bit := 1, last := now } := by
  simp [manchester_bitbang_toggle_rx, h]

/-- C4. An edge that comes more than `resetThreshold` ticks after the previous
one clears the count, the ready flag and the buffer and sets `last_bit`,
whatever the state was; a second such edge gives the same four fields again. -/
theorem toggle_rx_reset (context : manchester_bitbang) (now now2 : Nat)
    (h1 : sub32 now context.last > context.delays T_BACKWARD_STOP_MIN)
    (h2 : sub32 now2 now > context.delays T_BACKWARD_STOP_MIN) :
    ((manchester_bitbang_toggle_rx context now).received_half_bits = 0 ∧
      (manchester_bitbang_toggle_rx context now).rx_buf_rdy = 0 ∧
      (manchester_bitbang_toggle_rx context now).rx_buf = 0 ∧
      (manchester_bitbang_toggle_rx context now).last_bit = 1) ∧
    ((manchester_bitbang_toggle_rx (manchester_bitbang_toggle_rx context now) now2).received_half_bits = 0 ∧
      (manchester_bitbang_toggle_rx (manchester_bitbang_toggle_rx context now) now2).rx_buf_rdy = 0 ∧
      (manchester_bitbang_toggle_rx (manchester_bitbang_toggle_rx context now) now2).rx_buf = 0 ∧
      (manchester_bitbang_toggle_rx (manchester_bitbang_toggle_rx context now) now2).last_bit = 1) := by
  rw [toggle_rx_of_reset context now h1]
  rw [toggle_rx_of_reset _ now2 (by simpa using h2)]
  simp

theorem toggle_rx_reset_witness :
    (sub32 5182 busy_context.last > busy_context.delays T_BACKWARD_STOP_MIN ∧
      sub32 5364 5182 > busy_context.delays T_BACKWARD_STOP_MIN) ∧
    (((manchester_bitbang_toggle_rx busy_context 5182).received_half_bits = 0 ∧
      (manchester_bitbang_toggle_rx busy_context 5182).rx_buf_rdy = 0 ∧
      (manchester_bitbang_toggle_rx busy_context 5182).rx_buf = 0 ∧
      (manchester_bitbang_toggle_rx busy_context 5182).last_bit = 1) ∧
    ((manchester_bitbang_toggle_rx (manchester_bitbang_toggle_rx busy_context 5182) 5364).received_half_bits = 0 ∧
      (manchester_bitbang_toggle_rx (manchester_bitbang_toggle_rx busy_context 5182) 5364).rx_buf_rdy = 0 ∧
      (manchester_bitbang_toggle_rx (manchester_bitbang_toggle_rx busy_context 5182) 5364).rx_buf = 0 ∧
      (manchester_bitbang_toggle_rx (manchester_bitbang_toggle_rx busy_context 5182) 5364).last_bit = 1)) :=
  ⟨by decide, toggle_rx_reset busy_context 5182 5364 (by decide) (by decide)⟩

theorem toggle_rx_of_long (context : manchester_bitbang) (now : Nat)
    (h1 : ¬ sub32 now context.last > context.delays T_BACKWARD_STOP_MIN)
    (h2 : sub32 now context.last > context.delays T_3TO4_BIT) :
    manchester_bitbang_toggle_rx context now =
      { context with
        rx_buf := u16 (u16 (context.rx_buf <<< 1) ||| lnot8 context.last_bit)
        last_bit := lnot8 context.last_bit
        received_half_bits := u8 (context.received_half_bits + 2)
        rx_buf_rdy := if u8 (context.received_half_bits + 2) ≥ 17 then 1 else context.rx_buf_rdy
        last := now } := by
  simp only [manchester_bitbang_toggle_rx, h1, h2, if_true, if_false]
  split_ifs <;> rfl

theorem toggle_rx_of_short (context : manchester_bitbang) (now : Nat)
    (h1 : ¬ sub32 now context.last > context.delays T_BACKWARD_STOP_MIN)
    (h2 : ¬ sub32 now context.last > context.delays T_3TO4_BIT) :
    manchester_bitbang_toggle_rx context now =
      { context with
        rx_buf :=
          if u8 (context.received_half_bits + 1) % 2 = 1 then
            u16 (u16 (context.rx_buf <<< 1) ||| context.last_bit)
          else context.rx_buf
        received_half_bits := u8 (context.received_half_bits + 1)
        rx_buf_rdy := if u8 (context.received_half_bits + 1) ≥ 17 then 1 else context.rx_buf_rdy
        last := now } := by
  simp only [manchester_bitbang_toggle_rx, h1, h2, if_false]
  split_ifs <;> rfl

theorem toggle_rx_last (context : manchester_bitbang) (now : Nat) :
    (manchester_bitbang_toggle_rx context now).last = now := by
  simp [manchester_bitbang_toggle_rx]

theorem toggle_rx_delays (context : manchester_bitbang) (now : Nat) :
    (manchester_bitbang_toggle_rx context now).delays = context.delays := by
  unfold manchester_bitbang_toggle_rx
  simp only
  split_ifs <;> rfl

/-- The receiver fields after one call depend on the state only through the
receiver fields and through the branch taken. -/
theorem rx_of_toggle_rx (context : manchester_bitbang) (now : Nat) :
    rx_of (manchester_bitbang_toggle_rx context now) =
      rx_update (rx_branch context now) (rx_of context) := by
  unfold rx_branch delay_branch
  by_cases h1 : sub32 now context.last > context.delays T_BACKWARD_STOP_MIN
  · rw [toggle_rx_of_reset context now h1]
    simp [h1, rx_update, rx_ready, rx_of]
  · by_cases h2 : sub32 now context.last > context.delays T_3TO4_BIT
    · rw [toggle_rx_of_long context now h1 h2]
      simp only [h1, h2, if_true, if_false, rx_update, rx_ready, rx_of]
      split_ifs <;> rfl
    · rw [toggle_rx_of_short context now h1 h2]
      simp only [h1, h2, if_false, rx_update, rx_ready, rx_of]
      split_ifs <;> rfl

/-- The receiver fields after a list of edges are those of the run over the
classes of its intervals. -/
theorem rx_of_feed_edges (ts : List Nat) (context : manchester_bitbang) :
    rx_of (feed_edges context ts) =
      rx_run (rx_of context) (branches context.delays context.last ts) := by
  induction ts generalizing context with
  | nil => rfl
  | cons t ts ih =>
      have h := ih (manchester_bitbang_toggle_rx context t)
      rw [toggle_rx_last, toggle_rx_delays, rx_of_toggle_rx] at h
      simpa [feed_edges, rx_run, branches, rx_branch] using h

/-! ## The transmitter: lemmas -/

theorem lnot_level (bit : Int) : decide (lnot bit ≠ 0) = !decide (bit ≠ 0) := by
  unfold lnot
  by_cases h : bit = 0 <;> simp [h]

theorem write_byte_loop_next (context : manchester_bitbang) (data mask : Nat)
    (h : u8 (mask >>> 1) ≠ 0) :
    write_byte_loop context data mask =
      write_bit context ((data &&& mask : Nat) : Int) ++
        write_byte_loop context data (u8 (mask >>> 1)) := by
  rw [write_byte_loop]
  simp [h]

theorem write_byte_loop_done (context : manchester_bitbang) (data mask : Nat)
    (h : u8 (mask >>> 1) = 0) :
    write_byte_loop context data mask = write_bit context ((data &&& mask : Nat) : Int) := by
  rw [write_byte_loop]
  simp [h]

/-- The loop of `write_byte` makes eight calls of `write_bit`, for the masks
`0x80` down to `0x01`. -/
theorem write_byte_eq (context : manchester_bitbang) (data : Nat) :
    write_byte context data = write_bits context (byte_bits data) := by
  have e0 : u8 (1 <<< 7) = 128 := by decide
  have e1 : u8 (128 >>> 1) = 64 := by decide
  have e2 : u8 (64 >>> 1) = 32 := by decide
  have e3 : u8 (32 >>> 1) = 16 := by decide
  have e4 : u8 (16 >>> 1) = 8 := by decide
  have e5 : u8 (8 >>> 1) = 4 := by decide
  have e6 : u8 (4 >>> 1) = 2 := by decide
  have e7 : u8 (2 >>> 1) = 1 := by decide
  have e8 : u8 (1 >>> 1) = 0 := by decide
  rw [write_byte, e0,
    write_byte_loop_next context data 128 (by rw [e1]; decide), e1,
    write_byte_loop_next context data 64 (by rw [e2]; decide), e2,
    write_byte_loop_next context data 32 (by rw [e3]; decide), e3,
    write_byte_loop_next context data 16 (by rw [e4]; decide), e4,
    write_byte_loop_next context data 8 (by rw [e5]; decide), e5,
    write_byte_loop_next context data 4 (by rw [e6]; decide), e6,
    write_byte_loop_next context data 2 (by rw [e7]; decide), e7,
    write_byte_loop_done context data 1 e8]
  simp [write_bits, byte_bits]

theorem write_bits_append (context : manchester_bitbang) (xs ys : List Int) :
    write_bits context (xs ++ ys) = write_bits context xs ++ write_bits context ys := by
  induction xs with
  | nil => rfl
  | cons x xs ih => simp [write_bits, ih]

theorem u32_add_twice (last h : Nat) : u32 (u32 (last + h) + h) = u32 (last + 2 * h) := by
  unfold u32
  omega

/-- The edges of one call of `write_bit` made at time `t` with the line at
level `lvl`. -/
theorem line_edges_write_bit (context : manchester_bitbang) (bit : Int) (lvl : Bool) (t : Nat)
    (rest : List Ev) :
    line_edges lvl t (write_bit context bit ++ rest) =
      (if decide (bit ≠ 0) = lvl then [t, u32 (t + context.delays T_HALF_BIT)]
        else [u32 (t + context.delays T_HALF_BIT)]) ++
        line_edges (decide (bit ≠ 0))
          (u32 (u32 (t + context.delays T_HALF_BIT) + context.delays T_HALF_BIT)) rest := by
  simp only [write_bit, manchester_set_tx, manchester_delay, List.append_assoc,
    List.cons_append, List.nil_append, line_edges, lnot_level]
  generalize decide (bit ≠ 0) = v
  cases v <;> cases lvl <;> simp

/-- The edges of a run of bits that starts one half-bit after the edge at
`last`: their timestamps follow `last` with the gaps of the run, and the calls
after the run see the line at the level of the last bit, one half-bit after the
last edge. -/
theorem line_edges_write_bits (context : manchester_bitbang) (bits : List Int) :
    ∀ (lvl : Bool) (last : Nat) (rest : List Ev),
      line_edges lvl (u32 (last + context.delays T_HALF_BIT)) (write_bits context bits ++ rest) =
        stamps (context.delays T_HALF_BIT) last (gaps lvl bits) ++
          line_edges (end_level lvl bits)
            (u32 (end_stamp (context.delays T_HALF_BIT) last (gaps lvl bits) +
              context.delays T_HALF_BIT)) rest := by
  induction bits with
  | nil =>
      intro lvl last rest
      simp [write_bits, gaps, stamps, end_level, end_stamp]
  | cons bit bits ih =>
      intro lvl last rest
      rw [write_bits, List.append_assoc, line_edges_write_bit]
      by_cases hb : decide (bit ≠ 0) = lvl
      · rw [if_pos hb, ih]
        simp only [gaps, if_pos hb, stamps, one_mul, end_level, end_stamp, List.foldl_cons,
          List.cons_append, List.nil_append]
      · rw [if_neg hb, u32_add_twice, ih]
        simp only [gaps, if_neg hb, stamps, end_level, end_stamp, List.foldl_cons,
          List.cons_append, List.nil_append]

/-! ## Decoding a run of bits -/

theorem gaps_mem (bits : List Int) :
    ∀ (lvl : Bool) (g : Nat), g ∈ gaps lvl bits → g = 1 ∨ g = 2 := by
  induction bits with
  | nil => intro lvl g hg; simp [gaps] at hg
  | cons bit bits ih =>
      intro lvl g hg
      simp only [gaps, List.mem_append] at hg
      rcases hg with hg | hg
      · split_ifs at hg <;> simp at hg <;> omega
      · exact ih _ g hg

/-- Edges spaced by one or two half-bits are classified short or long when
`halfBit <= shortLongBoundary < 2 * halfBit <= resetThreshold`. -/
theorem branches_stamps (delays : Fin 5 → Nat) (h : Nat)
    (h1 : h ≤ delays T_3TO4_BIT) (h2 : delays T_3TO4_BIT < 2 * h)
    (h3 : 2 * h ≤ delays T_BACKWARD_STOP_MIN) (h4 : delays T_BACKWARD_STOP_MIN < 4294967296)
    (gs : List Nat) :
    ∀ (last : Nat), (∀ g ∈ gs, g = 1 ∨ g = 2) →
      branches delays last (stamps h last gs) = gs.map gap_branch := by
  induction gs with
  | nil => intro last _; rfl
  | cons g gs ih =>
      intro last hg
      have hg1 : g = 1 ∨ g = 2 := hg g (List.mem_cons_self _ _)
      have hrest : ∀ x ∈ gs, x = 1 ∨ x = 2 := fun x hx => hg x (List.mem_cons_of_mem _ hx)
      simp only [stamps, branches, List.map_cons, ih _ hrest]
      congr 1
      rcases hg1 with rfl | rfl
      · have e : sub32 (u32 (last + 1 * h)) last = h := by
          unfold sub32 u32; omega
        rw [e]
        simp only [delay_branch, gap_branch, if_true]
        rw [if_neg (by omega), if_neg (by omega)]
      · have e : sub32 (u32 (last + 2 * h)) last = 2 * h := by
          unfold sub32 u32; omega
        rw [e]
        simp only [delay_branch, gap_branch]
        rw [if_neg (by omega), if_pos (by omega), if_neg (by omega)]

/-- The same classes are found when every timestamp, the previous edge
included, is moved by at most `j` ticks, as long as the thresholds leave `2 * j`
ticks of room on each side. -/
theorem branches_jitter (delays : Fin 5 → Nat) (h j : Nat)
    (h1 : h + 2 * j ≤ delays T_3TO4_BIT) (h2 : delays T_3TO4_BIT + 2 * j < 2 * h)
    (h3 : 2 * h + 2 * j ≤ delays T_BACKWARD_STOP_MIN)
    (h4 : delays T_BACKWARD_STOP_MIN < 4294967296)
    (gs : List Nat) :
    ∀ (last : Nat) (d0 : Int) (ds : List Int), (∀ g ∈ gs, g = 1 ∨ g = 2) →
      d0.natAbs ≤ j → (∀ d ∈ ds, d.natAbs ≤ j) → ds.length = gs.length →
      branches delays (shift_stamp last d0) (jitter (stamps h last gs) ds) =
        gs.map gap_branch := by
  induction gs with
  | nil =>
      intro last d0 ds _ _ _ hlen
      cases ds with
      | nil => rfl
      | cons d ds => simp at hlen
  | cons g gs ih =>
      intro last d0 ds hg hd0 hds hlen
      cases ds with
      | nil => simp at hlen
      | cons d ds =>
          have hg1 : g = 1 ∨ g = 2 := hg g (List.mem_cons_self _ _)
          have hrest : ∀ x ∈ gs, x = 1 ∨ x = 2 := fun x hx => hg x (List.mem_cons_of_mem _ hx)
          have hd : d.natAbs ≤ j := hds d (List.mem_cons_self _ _)
          have hds2 : ∀ x ∈ ds, x.natAbs ≤ j := fun x hx => hds x (List.mem_cons_of_mem _ hx)
          have hlen2 : ds.length = gs.length := by simpa using hlen
          simp only [stamps, jitter, List.zipWith_cons_cons, branches, List.map_cons]
          have ih2 := ih (u32 (last + g * h)) d ds hrest hd hds2 hlen2
          simp only [jitter] at ih2
          rw [ih2]
          congr 1
          rcases hg1 with rfl | rfl
          · have e : sub32 (shift_stamp (u32 (last + 1 * h)) d) (shift_stamp last d0) =
                ((h : Int) + d - d0).toNat := by
              unfold sub32 u32 shift_stamp; omega
            rw [e]
            simp only [delay_branch, gap_branch, if_true]
            rw [if_neg (by omega), if_neg (by omega)]
          · have e : sub32 (shift_stamp (u32 (last + 2 * h)) d) (shift_stamp last d0) =
                ((2 * h : Nat) + d - d0).toNat := by
              unfold sub32 u32 shift_stamp; omega
            rw [e]
            simp only [delay_branch, gap_branch]
            rw [if_neg (by omega), if_pos (by omega), if_neg (by omega)]

theorem lnot8_bit_value (bit : Int) (lvl : Bool) (h : ¬ decide (bit ≠ 0) = lvl) :
    lnot8 (if lvl then 1 else 0) = bit_value bit := by
  unfold lnot8 bit_value
  by_cases hb : bit = 0 <;> cases lvl <;> simp_all

theorem bit_value_of_level (bit : Int) (lvl : Bool) (h : decide (bit ≠ 0) = lvl) :
    (if lvl then 1 else 0) = bit_value bit := by
  unfold bit_value
  by_cases hb : bit = 0 <;> cases lvl <;> simp_all

theorem bit_value_eq (bit : Int) : bit_value bit = if decide (bit ≠ 0) then 1 else 0 := by
  unfold bit_value
  by_cases hb : bit = 0 <;> simp [hb]

/-- Two short intervals met at an odd count commit the unchanged bit. -/
theorem rx_update_short_short (f : rx_fields) (hodd : f.received_half_bits % 2 = 1) :
    rx_update Branch.short (rx_update Branch.short f) =
      { rx_buf := u16 (u16 (f.rx_buf <<< 1) ||| f.last_bit),
        rx_buf_rdy := if u8 (f.received_half_bits + 2) ≥ 17 then 1 else f.rx_buf_rdy,
        received_half_bits := u8 (f.received_half_bits + 2),
        last_bit := f.last_bit } := by
  rcases f with ⟨r, y, n, p⟩
  simp only at hodd
  have e1 : u8 (n + 1) % 2 = 0 := by unfold u8; omega
  have e2 : u8 (u8 (n + 1) + 1) = u8 (n + 2) := by unfold u8; omega
  have e3 : u8 (n + 2) % 2 = 1 := by unfold u8; omega
  have e4 : 17 ≤ u8 (n + 1) → 17 ≤ u8 (n + 2) := by unfold u8; omega
  simp only [rx_update, rx_ready, e1, e2, e3, if_true, if_false, ge_iff_le,
    show ¬ ((0 : Nat) = 1) by decide]
  by_cases c1 : 17 ≤ u8 (n + 1)
  · have c2 := e4 c1
    simp [c1, c2, e1, e2, e3]
  · by_cases c2 : 17 ≤ u8 (n + 2) <;> simp [c1, c2, e1, e2, e3]

/-- One long interval commits the complemented bit. -/
theorem rx_update_long (f : rx_fields) :
    rx_update Branch.long f =
      { rx_buf := u16 (u16 (f.rx_buf <<< 1) ||| lnot8 f.last_bit),
        rx_buf_rdy := if u8 (f.received_half_bits + 2) ≥ 17 then 1 else f.rx_buf_rdy,
        received_half_bits := u8 (f.received_half_bits + 2),
        last_bit := lnot8 f.last_bit } := by
  simp only [rx_update, rx_ready]
  split_ifs <;> rfl

/-- The receiver run over the gaps of a run of bits commits the bits one by
one, when it starts at an odd count with `last_bit` at the level of the line. -/
theorem rx_run_gaps (bits : List Int) :
    ∀ (lvl : Bool) (f : rx_fields), f.last_bit = (if lvl then 1 else 0) →
      f.received_half_bits % 2 = 1 →
      rx_run f ((gaps lvl bits).map gap_branch) = bits.foldl commit f := by
  induction bits with
  | nil => intro lvl f _ _; rfl
  | cons bit bits ih =>
      intro lvl f hl hodd
      have hc1 : (commit f bit).last_bit = (if decide (bit ≠ 0) then 1 else 0) := by
        simp only [commit, bit_value_eq]
      have hc2 : (commit f bit).received_half_bits % 2 = 1 := by
        simp only [commit, u8]; omega
      have step := ih (decide (bit ≠ 0)) (commit f bit) hc1 hc2
      by_cases hb : decide (bit ≠ 0) = lvl
      · have e : rx_update Branch.short (rx_update Branch.short f) = commit f bit := by
          rw [rx_update_short_short f hodd, hl, bit_value_of_level bit lvl hb]
          rfl
        simp only [gaps, if_pos hb, List.map_append, List.map_cons, List.map_nil, gap_branch,
          if_true, List.cons_append, List.nil_append, rx_run, List.foldl_cons]
        rw [e]
        exact step
      · have e : rx_update Branch.long f = commit f bit := by
          rw [rx_update_long f, hl, lnot8_bit_value bit lvl hb]
          rfl
        simp only [gaps, if_neg hb, List.map_append, List.map_cons, List.map_nil, gap_branch,
          List.cons_append, List.nil_append, rx_run, List.foldl_cons,
          show ¬ ((2 : Nat) = 1) by decide, if_false]
        rw [e]
        exact step

theorem commit_rx_buf (r v : Nat) (hv : v ≤ 1) :
    u16 (u16 (r <<< 1) ||| v) = (2 * r + v) % 65536 := by
  have e : 2 ^ 1 * r + v = 2 ^ 1 * r ||| v := Nat.mul_add_lt_is_or (by omega) r
  rw [u16_or_u16, Nat.shiftLeft_eq, Nat.mul_comm r, ← e]
  norm_num

set_option maxRecDepth 100000 in
theorem byte_bits_values :
    ∀ d < 256, (byte_bits d).map bit_value =
      [d / 128 % 2, d / 64 % 2, d / 32 % 2, d / 16 % 2, d / 8 % 2, d / 4 % 2, d / 2 % 2, d % 2] := by
  decide

theorem bit_value_le (bit : Int) : bit_value bit ≤ 1 := by
  unfold bit_value
  split_ifs <;> omega

/-- A run of commits that does not wrap the 8-bit count: the count, the buffer
and the ready flag after it. -/
theorem foldl_commit (bits : List Int) :
    ∀ (f : rx_fields), f.received_half_bits + 2 * bits.length < 256 →
      (bits.foldl commit f).received_half_bits = f.received_half_bits + 2 * bits.length ∧
      (bits.foldl commit f).rx_buf =
        (bits.map bit_value).foldl (fun r v => (2 * r + v) % 65536) f.rx_buf ∧
      (bits.foldl commit f).rx_buf_rdy =
        (if 17 ≤ f.received_half_bits + 2 * bits.length ∧ bits ≠ [] then 1 else f.rx_buf_rdy) := by
  induction bits with
  | nil => intro f _; simp
  | cons bit bits ih =>
      intro f hlen
      simp only [List.length_cons] at hlen
      have e1 : (commit f bit).received_half_bits = f.received_half_bits + 2 := by
        simp only [commit, u8]; omega
      have e2 : (commit f bit).rx_buf = (2 * f.rx_buf + bit_value bit) % 65536 := by
        simp only [commit]; exact commit_rx_buf _ _ (bit_value_le bit)
      have e3 : (commit f bit).rx_buf_rdy =
          if 17 ≤ f.received_half_bits + 2 then 1 else f.rx_buf_rdy := by
        have e : u8 (f.received_half_bits + 2) = f.received_half_bits + 2 := by
          unfold u8; omega
        simp only [commit, e, ge_iff_le]
      obtain ⟨i1, i2, i3⟩ := ih (commit f bit) (by rw [e1]; omega)
      simp only [List.foldl_cons, List.map_cons, List.length_cons]
      refine ⟨by rw [i1, e1]; omega, by rw [i2, e2], ?_⟩
      rw [i3, e1, e3]
      by_cases hn : bits = []
      · subst hn; simp
      · have hpos : 0 < bits.length := List.length_pos.mpr hn
        by_cases c : 17 ≤ f.received_half_bits + 2
        · have c2 : 17 ≤ f.received_half_bits + 2 + 2 * bits.length := by omega
          have c3 : 17 ≤ f.received_half_bits + 2 * (bits.length + 1) := by omega
          simp [c, c2, c3, hn]
        · by_cases c2 : 17 ≤ f.received_half_bits + 2 + 2 * bits.length
          · have c3 : 17 ≤ f.received_half_bits + 2 * (bits.length + 1) := by omega
            simp [c, c2, c3, hn]
          · have c3 : ¬ 17 ≤ f.received_half_bits + 2 * (bits.length + 1) := by omega
            simp [c, c2, c3]

/-- Eight commits of the bits of a byte shift the byte into the buffer. -/
theorem foldl_commit_byte (f : rx_fields) (d : Nat) (hd : d < 256)
    (hn : f.received_half_bits + 16 < 256) :
    ((byte_bits d).foldl commit f).rx_buf = u16 (256 * f.rx_buf + d) ∧
    ((byte_bits d).foldl commit f).received_half_bits = f.received_half_bits + 16 ∧
    ((byte_bits d).foldl commit f).last_bit = d % 2 ∧
    ((byte_bits d).foldl commit f).rx_buf_rdy =
      (if 1 ≤ f.received_half_bits then 1 else f.rx_buf_rdy) := by
  have hlen : (byte_bits d).length = 8 := rfl
  obtain ⟨i1, i2, i3⟩ := foldl_commit (byte_bits d) f (by rw [hlen]; omega)
  have hv := byte_bits_values d hd
  have hlast : ((byte_bits d).foldl commit f).last_bit = bit_value ((d &&& 1 : Nat) : Int) := rfl
  have hv0 : bit_value ((d &&& 1 : Nat) : Int) = d % 2 := by
    simp only [byte_bits, List.map_cons, List.map_nil, List.cons.injEq, and_true] at hv
    exact hv.2.2.2.2.2.2.2
  refine ⟨?_, by rw [i1, hlen], by rw [hlast, hv0], ?_⟩
  · rw [i2, hv]
    simp only [List.foldl_cons, List.foldl_nil, u16]
    omega
  · rw [i3, hlen]
    have hne : byte_bits d ≠ [] := by simp [byte_bits]
    by_cases c : 1 ≤ f.received_half_bits
    · have c2 : 17 ≤ f.received_half_bits + 2 * 8 := by omega
      simp [c, c2, hne]
    · have c2 : ¬ 17 ≤ f.received_half_bits + 2 * 8 := by omega
      simp [c, c2]

/-! ## Round trip of one byte -/

theorem branches_dropLast (delays : Fin 5 → Nat) (ts : List Nat) :
    ∀ (last : Nat), branches delays last ts.dropLast = (branches delays last ts).dropLast := by
  induction ts with
  | nil => intro last; rfl
  | cons t ts ih =>
      intro last
      cases ts with
      | nil => rfl
      | cons t2 ts =>
          have h := ih t
          simp only [List.dropLast, branches] at h ⊢
          rw [h]

/-- The edges of a start bit and a byte sent from an idle-high line at `t0`. -/
theorem frame_edges (context : manchester_bitbang) (b t0 : Nat) :
    line_edges true t0 (write_bit context 1 ++ write_byte context b) =
      t0 :: u32 (t0 + context.delays T_HALF_BIT) ::
        stamps (context.delays T_HALF_BIT) (u32 (t0 + context.delays T_HALF_BIT))
          (gaps true (byte_bits b)) := by
  have h := line_edges_write_bits context (byte_bits b) true
    (u32 (t0 + context.delays T_HALF_BIT)) []
  rw [List.append_nil] at h
  rw [write_byte_eq, line_edges_write_bit]
  simp only [show decide ((1 : Int) ≠ 0) = true by decide, if_true]
  rw [h]
  simp [line_edges]

set_option maxRecDepth 100000 in
theorem frame_not_ready_early :
    ∀ b < 256,
      (rx_run { rx_buf := 0, rx_buf_rdy := 0, received_half_bits := 0, last_bit := 1 }
        (Branch.short :: (gaps true (byte_bits b)).map gap_branch).dropLast).rx_buf_rdy = 0 := by
  decide

theorem sub32_u32_add (t h : Nat) (hh : h < 4294967296) : sub32 (u32 (t + h)) t = h := by
  unfold sub32 u32
  omega

/-- The receiver fields after the two edges of a start bit. -/
theorem rx_update_start (f : rx_fields) :
    rx_update Branch.short (rx_update Branch.reset f) =
      { rx_buf := 1, rx_buf_rdy := 0, received_half_bits := 1, last_bit := 1 } := by
  simp [rx_update, rx_ready, u8, u16]

/-- The classes of the intervals of a frame: a reset, the short interval inside
the start bit, then the gaps of the byte. -/
theorem frame_branches (context : manchester_bitbang) (b t0 : Nat)
    (h1 : context.delays T_HALF_BIT ≤ context.delays T_3TO4_BIT)
    (h2 : context.delays T_3TO4_BIT < 2 * context.delays T_HALF_BIT)
    (h3 : 2 * context.delays T_HALF_BIT ≤ context.delays T_BACKWARD_STOP_MIN)
    (hfirst : sub32 t0 context.last > context.delays T_BACKWARD_STOP_MIN) :
    branches context.delays context.last
        (line_edges true t0 (write_bit context 1 ++ write_byte context b)) =
      Branch.reset :: Branch.short :: (gaps true (byte_bits b)).map gap_branch := by
  have h4 : context.delays T_BACKWARD_STOP_MIN < 4294967296 := by
    have : sub32 t0 context.last < 4294967296 := by unfold sub32; omega
    omega
  rw [frame_edges]
  simp only [branches]
  rw [branches_stamps context.delays _ h1 h2 h3 h4 _ _ (gaps_mem _ _),
    sub32_u32_add _ _ (by omega)]
  simp only [delay_branch]
  rw [if_pos hfirst, if_neg (by omega), if_neg (by omega)]

/-- The receiver fields after the edges of a start bit and a byte: the eight
bits committed on top of the start bit. -/
theorem frame_fields (context : manchester_bitbang) (b t0 : Nat)
    (h1 : context.delays T_HALF_BIT ≤ context.delays T_3TO4_BIT)
    (h2 : context.delays T_3TO4_BIT < 2 * context.delays T_HALF_BIT)
    (h3 : 2 * context.delays T_HALF_BIT ≤ context.delays T_BACKWARD_STOP_MIN)
    (hfirst : sub32 t0 context.last > context.delays T_BACKWARD_STOP_MIN) :
    rx_of (feed_edges context
        (line_edges true t0 (write_bit context 1 ++ write_byte context b))) =
      (byte_bits b).foldl commit
        { rx_buf := 1, rx_buf_rdy := 0, received_half_bits := 1, last_bit := 1 } := by
  rw [rx_of_feed_edges, frame_branches context b t0 h1 h2 h3 hfirst,
    ← rx_run_gaps (byte_bits b) true
      { rx_buf := 1, rx_buf_rdy := 0, received_half_bits := 1, last_bit := 1 } rfl (by decide)]
  simp only [rx_run, List.foldl_cons, rx_update_start]

/-- The buffer after the edges of a start bit and a byte holds the start bit
above the byte. -/
theorem frame_rx_buf (context : manchester_bitbang) (b t0 : Nat) (hb : b < 256)
    (h1 : context.delays T_HALF_BIT ≤ context.delays T_3TO4_BIT)
    (h2 : context.delays T_3TO4_BIT < 2 * context.delays T_HALF_BIT)
    (h3 : 2 * context.delays T_HALF_BIT ≤ context.delays T_BACKWARD_STOP_MIN)
    (hfirst : sub32 t0 context.last > context.delays T_BACKWARD_STOP_MIN) :
    (feed_edges context
      (line_edges true t0 (write_bit context 1 ++ write_byte context b))).rx_buf = 256 + b := by
  have hfull := frame_fields context b t0 h1 h2 h3 hfirst
  have f1 := (foldl_commit_byte
    { rx_buf := 1, rx_buf_rdy := 0, received_half_bits := 1, last_bit := 1 } b hb
    (by decide)).1
  rw [← hfull] at f1
  simp only [rx_of, u16] at f1
  omega

theorem and_255_of_frame (b : Nat) (hb : b < 256) : (256 + b) &&& 0xFF = b := by
  rw [show (255 : Nat) = 2 ^ 8 - 1 by norm_num, Nat.and_pow_two_sub_one_eq_mod]
  omega

/-- C1. Round trip of one byte. For every byte `b` and every table of delays
with `halfBit <= shortLongBoundary < 2 * halfBit <= resetThreshold`: the edges
of the levels that `write_bit(1)` and `write_byte(b)` set on an idle-high line,
the first of them more than `resetThreshold` ticks after the previous edge, fed
in order to `manchester_bitbang_toggle_rx`, leave `rx_buf_rdy` at 0 before the
last edge and at 1 after it, `received_half_bits` at 17 and `b` in the low byte
of `rx_buf`. -/
theorem roundtrip_byte (context : manchester_bitbang) (b t0 : Nat) (hb : b < 256)
    (h1 : context.delays T_HALF_BIT ≤ context.delays T_3TO4_BIT)
    (h2 : context.delays T_3TO4_BIT < 2 * context.delays T_HALF_BIT)
    (h3 : 2 * context.delays T_HALF_BIT ≤ context.delays T_BACKWARD_STOP_MIN)
    (hfirst : sub32 t0 context.last > context.delays T_BACKWARD_STOP_MIN) :
    (feed_edges context
      (line_edges true t0 (write_bit context 1 ++ write_byte context b)).dropLast).rx_buf_rdy = 0 ∧
    (feed_edges context
      (line_edges true t0 (write_bit context 1 ++ write_byte context b))).rx_buf_rdy = 1 ∧
    (feed_edges context
      (line_edges true t0 (write_bit context 1 ++ write_byte context b))).received_half_bits = 17 ∧
    (feed_edges context
      (line_edges true t0 (write_bit context 1 ++ write_byte context b))).rx_buf &&& 0xFF = b := by
  have hk := frame_branches context b t0 h1 h2 h3 hfirst
  have hfull := frame_fields context b t0 h1 h2 h3 hfirst
  have hcut := rx_of_feed_edges
    (line_edges true t0 (write_bit context 1 ++ write_byte context b)).dropLast context
  rw [branches_dropLast, hk] at hcut
  obtain ⟨_, f2, _, f4⟩ := foldl_commit_byte
    { rx_buf := 1, rx_buf_rdy := 0, received_half_bits := 1, last_bit := 1 } b hb (by decide)
  rw [← hfull] at f2 f4
  have hcut2 : (rx_of (feed_edges context
      (line_edges true t0 (write_bit context 1 ++ write_byte context b)).dropLast)).rx_buf_rdy
      = 0 := by
    rw [hcut]
    exact frame_not_ready_early b hb
  refine ⟨hcut2, ?_, f2, ?_⟩
  · simpa [rx_of] using f4
  · rw [frame_rx_buf context b t0 hb h1 h2 h3 hfirst]
    exact and_255_of_frame b hb

theorem roundtrip_byte_witness :
    ((0xA5 : Nat) < 256 ∧
      clock_32k_context.delays T_HALF_BIT ≤ clock_32k_context.delays T_3TO4_BIT ∧
      clock_32k_context.delays T_3TO4_BIT < 2 * clock_32k_context.delays T_HALF_BIT ∧
      2 * clock_32k_context.delays T_HALF_BIT ≤ clock_32k_context.delays T_BACKWARD_STOP_MIN ∧
      sub32 1000 clock_32k_context.last > clock_32k_context.delays T_BACKWARD_STOP_MIN) ∧
    ((feed_edges clock_32k_context
      (line_edges true 1000
        (write_bit clock_32k_context 1 ++ write_byte clock_32k_context 0xA5)).dropLast).rx_buf_rdy = 0 ∧
    (feed_edges clock_32k_context
      (line_edges true 1000
        (write_bit clock_32k_context 1 ++ write_byte clock_32k_context 0xA5))).rx_buf_rdy = 1 ∧
    (feed_edges clock_32k_context
      (line_edges true 1000
        (write_bit clock_32k_context 1 ++ write_byte clock_32k_context 0xA5))).received_half_bits = 17 ∧
    (feed_edges clock_32k_context
      (line_edges true 1000
        (write_bit clock_32k_context 1 ++ write_byte clock_32k_context 0xA5))).rx_buf &&& 0xFF = 0xA5) :=
  ⟨by decide, roundtrip_byte clock_32k_context 0xA5 1000 (by decide) (by decide) (by decide)
    (by decide) (by decide)⟩

theorem branches_stamps_append (delays : Fin 5 → Nat) (h : Nat) (gs : List Nat) :
    ∀ (last : Nat) (ys : List Nat),
      branches delays last (stamps h last gs ++ ys) =
        branches delays last (stamps h last gs) ++ branches delays (end_stamp h last gs) ys := by
  induction gs with
  | nil => intro last ys; rfl
  | cons g gs ih =>
      intro last ys
      have step := ih (u32 (last + g * h)) ys
      simp only [end_stamp] at step
      simp only [stamps, List.cons_append, branches, end_stamp, List.foldl_cons, List.append_eq,
        step]

theorem rx_run_append (f : rx_fields) (xs ys : List Branch) :
    rx_run f (xs ++ ys) = rx_run (rx_run f xs) ys := by
  simp [rx_run, List.foldl_append]

/-- The calls of a transfer, with the two bytes as one run of sixteen bits. -/
theorem transfer_calls (context : manchester_bitbang) (msg : manchester_msg)
    (n a d : Nat) (rest : List Nat) (hmsg : msg.buf = d :: rest) :
    (manchester_bitbang_transfer context msg n a).2 =
      Ev.disable_rx :: (write_bit context 1 ++
        (write_bits context (byte_bits a ++ byte_bits d) ++
          (write_idle context ++ manchester_enable_rx context))) := by
  simp only [manchester_bitbang_transfer, manchester_disable_rx, hmsg, List.headD_cons,
    write_byte_eq, write_bits_append, List.append_assoc, List.singleton_append]
  rfl

/-- The idle level at the end of a transfer is an edge when the line is low. -/
theorem line_edges_idle (context : manchester_bitbang) (lvl : Bool) (t : Nat) :
    line_edges lvl t (write_idle context ++ manchester_enable_rx context) =
      if lvl then [] else [t] := by
  cases lvl <;>
    simp [write_idle, manchester_set_tx, manchester_delay, manchester_enable_rx, line_edges]

/-- The edges of a whole transfer on an idle-high line: those of the start bit,
those of the sixteen bits, and one more, a half-bit after the last, when the
last bit left the line low. -/
theorem transfer_edges (context : manchester_bitbang) (msg : manchester_msg)
    (n a d t0 : Nat) (rest : List Nat) (hmsg : msg.buf = d :: rest) :
    line_edges true t0 (manchester_bitbang_transfer context msg n a).2 =
      t0 :: u32 (t0 + context.delays T_HALF_BIT) ::
        (stamps (context.delays T_HALF_BIT) (u32 (t0 + context.delays T_HALF_BIT))
          (gaps true (byte_bits a ++ byte_bits d)) ++
        (if end_level true (byte_bits a ++ byte_bits d) then []
          else [u32 (end_stamp (context.delays T_HALF_BIT) (u32 (t0 + context.delays T_HALF_BIT))
            (gaps true (byte_bits a ++ byte_bits d)) + context.delays T_HALF_BIT)])) := by
  rw [transfer_calls context msg n a d rest hmsg, line_edges, line_edges_write_bit]
  simp only [show decide ((1 : Int) ≠ 0) = true by decide, if_true]
  rw [line_edges_write_bits, line_edges_idle]
  rfl

/-! ## A whole transfer -/

/-- The classes of the intervals of a transfer. -/
theorem transfer_branches (context : manchester_bitbang) (msg : manchester_msg)
    (n a d t0 : Nat) (rest : List Nat) (hmsg : msg.buf = d :: rest)
    (h1 : context.delays T_HALF_BIT ≤ context.delays T_3TO4_BIT)
    (h2 : context.delays T_3TO4_BIT < 2 * context.delays T_HALF_BIT)
    (h3 : 2 * context.delays T_HALF_BIT ≤ context.delays T_BACKWARD_STOP_MIN)
    (hfirst : sub32 t0 context.last > context.delays T_BACKWARD_STOP_MIN) :
    branches context.delays context.last
        (line_edges true t0 (manchester_bitbang_transfer context msg n a).2) =
      Branch.reset :: Branch.short ::
        ((gaps true (byte_bits a ++ byte_bits d)).map gap_branch ++
          (if end_level true (byte_bits a ++ byte_bits d) then [] else [Branch.short])) := by
  have h4 : context.delays T_BACKWARD_STOP_MIN < 4294967296 := by
    have : sub32 t0 context.last < 4294967296 := by unfold sub32; omega
    omega
  rw [transfer_edges context msg n a d t0 rest hmsg]
  simp only [branches]
  rw [branches_stamps_append, branches_stamps context.delays _ h1 h2 h3 h4 _ _ (gaps_mem _ _),
    sub32_u32_add _ _ (by omega)]
  simp only [delay_branch]
  rw [if_pos hfirst, if_neg (by omega), if_neg (by omega)]
  cases end_level true (byte_bits a ++ byte_bits d)
  · simp only [branches, delay_branch, Bool.false_eq_true, if_false]
    rw [sub32_u32_add _ _ (by omega), if_neg (by omega), if_neg (by omega)]
  · simp [branches]

theorem shl8_or (a d : Nat) (hd : d < 256) : a <<< 8 ||| d = 256 * a + d := by
  have e : 2 ^ 8 * a + d = 2 ^ 8 * a ||| d := Nat.mul_add_lt_is_or (by omega) a
  rw [Nat.shiftLeft_eq, Nat.mul_comm a, ← e]
  norm_num

/-- A short interval met at an odd count keeps the buffer and the ready flag
once the flag is set. -/
theorem rx_update_short_odd (f : rx_fields) (hodd : f.received_half_bits % 2 = 1)
    (hrdy : f.rx_buf_rdy = 1) :
    (rx_update Branch.short f).rx_buf = f.rx_buf ∧
    (rx_update Branch.short f).rx_buf_rdy = 1 := by
  have e1 : u8 (f.received_half_bits + 1) % 2 = 0 := by unfold u8; omega
  simp only [rx_update, rx_ready, e1, show ¬ ((0 : Nat) = 1) by decide, if_false]
  split_ifs <;> simp [hrdy]

/-- C2. Full-frame decode. For every address byte `a`, data byte `d` and every
table of delays with `halfBit <= shortLongBoundary < 2 * halfBit <=
resetThreshold`: all the edges of the levels that
`manchester_bitbang_transfer` drives on an idle-high line, the edge of the
closing idle level included and the first edge more than `resetThreshold` ticks
after the previous one, fed to `manchester_bitbang_toggle_rx`, end with
`rx_buf_rdy = 1` and `rx_buf = (a << 8) | d`, so that the low byte is `d`. -/
theorem transfer_decodes (context : manchester_bitbang) (msg : manchester_msg)
    (n a d t0 : Nat) (rest : List Nat) (ha : a < 256) (hd : d < 256)
    (hmsg : msg.buf = d :: rest)
    (h1 : context.delays T_HALF_BIT ≤ context.delays T_3TO4_BIT)
    (h2 : context.delays T_3TO4_BIT < 2 * context.delays T_HALF_BIT)
    (h3 : 2 * context.delays T_HALF_BIT ≤ context.delays T_BACKWARD_STOP_MIN)
    (hfirst : sub32 t0 context.last > context.delays T_BACKWARD_STOP_MIN) :
    (feed_edges context
      (line_edges true t0 (manchester_bitbang_transfer context msg n a).2)).rx_buf_rdy = 1 ∧
    (feed_edges context
      (line_edges true t0 (manchester_bitbang_transfer context msg n a).2)).rx_buf
        = a <<< 8 ||| d ∧
    (feed_edges context
      (line_edges true t0 (manchester_bitbang_transfer context msg n a).2)).rx_buf &&& 0xFF
        = d := by
  have hk := transfer_branches context msg n a d t0 rest hmsg h1 h2 h3 hfirst
  have hfull := rx_of_feed_edges
    (line_edges true t0 (manchester_bitbang_transfer context msg n a).2) context
  rw [hk] at hfull
  -- the receiver fields after the sixteen bits
  have hbits : rx_run (rx_of context)
      (Branch.reset :: Branch.short :: (gaps true (byte_bits a ++ byte_bits d)).map gap_branch) =
      (byte_bits d).foldl commit ((byte_bits a).foldl commit
        { rx_buf := 1, rx_buf_rdy := 0, received_half_bits := 1, last_bit := 1 }) := by
    rw [← List.foldl_append, ← rx_run_gaps (byte_bits a ++ byte_bits d) true
      { rx_buf := 1, rx_buf_rdy := 0, received_half_bits := 1, last_bit := 1 } rfl (by decide)]
    simp only [rx_run, List.foldl_cons, rx_update_start]
  obtain ⟨a1, a2, _, _⟩ := foldl_commit_byte
    { rx_buf := 1, rx_buf_rdy := 0, received_half_bits := 1, last_bit := 1 } a ha (by decide)
  obtain ⟨d1, d2, _, d4⟩ := foldl_commit_byte ((byte_bits a).foldl commit
    { rx_buf := 1, rx_buf_rdy := 0, received_half_bits := 1, last_bit := 1 }) d hd
    (by rw [a2]; decide)
  rw [a1] at d1
  rw [a2] at d2 d4
  rw [← hbits] at d1 d2 d4
  simp only [u16] at d1
  simp only [show (1 : Nat) ≤ 1 + 16 by decide, if_true] at d4
  have d1b : (rx_run (rx_of context) (Branch.reset :: Branch.short ::
      (gaps true (byte_bits a ++ byte_bits d)).map gap_branch)).rx_buf = a <<< 8 ||| d := by
    rw [d1, shl8_or a d hd]
    omega
  have hfields :
      (rx_of (feed_edges context
        (line_edges true t0 (manchester_bitbang_transfer context msg n a).2))).rx_buf
          = a <<< 8 ||| d ∧
      (rx_of (feed_edges context
        (line_edges true t0 (manchester_bitbang_transfer context msg n a).2))).rx_buf_rdy
          = 1 := by
    rw [hfull, ← List.cons_append, ← List.cons_append, rx_run_append]
    have d2b : (rx_run (rx_of context) (Branch.reset :: Branch.short ::
        (gaps true (byte_bits a ++ byte_bits d)).map gap_branch)).received_half_bits % 2 = 1 := by
      rw [d2]
      rfl
    generalize rx_run (rx_of context) (Branch.reset :: Branch.short ::
        (gaps true (byte_bits a ++ byte_bits d)).map gap_branch) = g at d1b d2b d4
    cases end_level true (byte_bits a ++ byte_bits d)
    · have hs := rx_update_short_odd g d2b d4
      simp only [Bool.false_eq_true, if_false, rx_run, List.foldl_cons, List.foldl_nil]
      rw [hs.1, hs.2, d1b]
      exact ⟨rfl, rfl⟩
    · simp only [if_true, rx_run, List.foldl_nil]
      exact ⟨d1b, d4⟩
  have hbuf : (feed_edges context
      (line_edges true t0 (manchester_bitbang_transfer context msg n a).2)).rx_buf
        = a <<< 8 ||| d := hfields.1
  refine ⟨hfields.2, hbuf, ?_⟩
  rw [hbuf, show (255 : Nat) = 2 ^ 8 - 1 by norm_num, Nat.and_pow_two_sub_one_eq_mod,
    shl8_or a d hd]
  omega

theorem transfer_decodes_witness :
    ((0x01 : Nat) < 256 ∧ (0xFF : Nat) < 256 ∧ one_byte_msg.buf = 0xFF :: [] ∧
      clock_32k_context.delays T_HALF_BIT ≤ clock_32k_context.delays T_3TO4_BIT ∧
      clock_32k_context.delays T_3TO4_BIT < 2 * clock_32k_context.delays T_HALF_BIT ∧
      2 * clock_32k_context.delays T_HALF_BIT ≤ clock_32k_context.delays T_BACKWARD_STOP_MIN ∧
      sub32 1000 clock_32k_context.last > clock_32k_context.delays T_BACKWARD_STOP_MIN) ∧
    ((feed_edges clock_32k_context
      (line_edges true 1000
        (manchester_bitbang_transfer clock_32k_context one_byte_msg 1 0x01).2)).rx_buf_rdy = 1 ∧
    (feed_edges clock_32k_context
      (line_edges true 1000
        (manchester_bitbang_transfer clock_32k_context one_byte_msg 1 0x01).2)).rx_buf
          = 0x01 <<< 8 ||| 0xFF ∧
    (feed_edges clock_32k_context
      (line_edges true 1000
        (manchester_bitbang_transfer clock_32k_context one_byte_msg 1 0x01).2)).rx_buf &&& 0xFF
          = 0xFF) :=
  ⟨by decide, transfer_decodes clock_32k_context one_byte_msg 1 0x01 0xFF 1000 [] (by decide)
    (by decide) rfl (by decide) (by decide) (by decide) (by decide)⟩

/-! ## The timing table -/

/-- A `uint64_t` quotient plus one stored in a `uint32_t` entry, when neither
the dividend nor the result wraps. -/
theorem u32_u64_div (x d : Nat) (hx : x < 18446744073709551616)
    (hq : x / d + 1 < 4294967296) : u32 (u64 (u64 x / d + 1)) = x / d + 1 := by
  have h2 : (x / d + 1) % 18446744073709551616 = x / d + 1 := Nat.mod_eq_of_lt (by omega)
  unfold u32 u64
  rw [Nat.mod_eq_of_lt hx, h2, Nat.mod_eq_of_lt hq]

/-- The five delays after `manchester_bitbang_configure`, for a clock rate that
fits 32 bits: nothing wraps in the `uint64_t` products nor in the `uint32_t`
entries. -/
theorem configure_delays (cps : Nat) (context : manchester_bitbang) (hc : cps < 4294967296) :
    (manchester_bitbang_configure cps context).2.delays T_HALF_BIT
      = cps * 416667 / 1000000000 + 1 ∧
    (manchester_bitbang_configure cps context).2.delays T_3TO4_BIT
      = cps * 625000 / 1000000000 + 1 ∧
    (manchester_bitbang_configure cps context).2.delays T_FULL_BIT
      = cps * 833333 / 1000000000 + 1 ∧
    (manchester_bitbang_configure cps context).2.delays T_STOP_BIT
      = cps * 5500000 / 1000000000 + 1 ∧
    (manchester_bitbang_configure cps context).2.delays T_BACKWARD_STOP_MIN
      = cps * 5500 / 1000000 + 1 := by
  have hu : u64 cps = cps := Nat.mod_eq_of_lt (by omega)
  have e1 := u32_u64_div (cps * 416667) 1000000000 (by omega) (by omega)
  have e2 := u32_u64_div (cps * 625000) 1000000000 (by omega) (by omega)
  have e3 := u32_u64_div (cps * 833333) 1000000000 (by omega) (by omega)
  have e4 := u32_u64_div (cps * 5500000) 1000000000 (by omega) (by omega)
  have e5 := u32_u64_div (cps * 5500) 1000000 (by omega) (by omega)
  simp only [manchester_bitbang_configure, set_delay, T_HALF_BIT, T_3TO4_BIT, T_FULL_BIT,
    T_STOP_BIT, T_BACKWARD_STOP_MIN, NS_TO_SYS_CLOCK_HW_CYCLES, US_TO_SYS_CLOCK_HW_CYCLES,
    NSEC_PER_SEC, USEC_PER_SEC, hu, e1, e2, e3, e4, e5]
  refine ⟨?_, ?_, ?_, ?_, ?_⟩ <;> simp

theorem configure_keeps_state (cps : Nat) (context : manchester_bitbang) :
    (manchester_bitbang_configure cps context).2.last = context.last ∧
    rx_of (manchester_bitbang_configure cps context).2 = rx_of context := by
  simp [manchester_bitbang_configure, set_delay, rx_of]

/-- C7 (amended). For every clock rate below `2^32`, each of the five delays
that `manchester_bitbang_configure` stores is `floor(cps * n / divisor) + 1`:
the ceiling of the exact duration in ticks when `cps * n` is not a multiple of
the divisor, one more than the ceiling when it is. -/
theorem configure_ceiling (cps : Nat) (context : manchester_bitbang) (hc : cps < 4294967296) :
    (manchester_bitbang_configure cps context).2.delays T_HALF_BIT
      = ceil_div (cps * 416667) 1000000000 + (if cps * 416667 % 1000000000 = 0 then 1 else 0) ∧
    (manchester_bitbang_configure cps context).2.delays T_3TO4_BIT
      = ceil_div (cps * 625000) 1000000000 + (if cps * 625000 % 1000000000 = 0 then 1 else 0) ∧
    (manchester_bitbang_configure cps context).2.delays T_FULL_BIT
      = ceil_div (cps * 833333) 1000000000 + (if cps * 833333 % 1000000000 = 0 then 1 else 0) ∧
    (manchester_bitbang_configure cps context).2.delays T_STOP_BIT
      = ceil_div (cps * 5500000) 1000000000 + (if cps * 5500000 % 1000000000 = 0 then 1 else 0) ∧
    (manchester_bitbang_configure cps context).2.delays T_BACKWARD_STOP_MIN
      = ceil_div (cps * 5500) 1000000 + (if cps * 5500 % 1000000 = 0 then 1 else 0) := by
  obtain ⟨e1, e2, e3, e4, e5⟩ := configure_delays cps context hc
  rw [e1, e2, e3, e4, e5]
  unfold ceil_div
  refine ⟨?_, ?_, ?_, ?_, ?_⟩ <;> split_ifs <;> omega

/-- C7, counterexample. On a clock of 1 MHz the 625000 ns of
`shortLongBoundary` are exactly 625 ticks; the stored delay is 626. -/
theorem configure_ceiling_counterexample :
    (manchester_bitbang_configure 1000000 zero_context).2.delays T_3TO4_BIT
      ≠ ceil_div (1000000 * 625000) 1000000000 := by
  decide

/-- C8 (amended). For every clock rate below `2^32` the table of
`manchester_bitbang_configure` has `resetThreshold = idleThreshold >=
shortLongBoundary >= halfBit`, and `idleThreshold > shortLongBoundary >
halfBit` for every clock rate of at least 3200 ticks per second. -/
theorem configure_order (cps : Nat) (context : manchester_bitbang) (hc : cps < 4294967296) :
    (manchester_bitbang_configure cps context).2.delays T_BACKWARD_STOP_MIN
      = (manchester_bitbang_configure cps context).2.delays T_STOP_BIT ∧
    (manchester_bitbang_configure cps context).2.delays T_STOP_BIT
      ≥ (manchester_bitbang_configure cps context).2.delays T_3TO4_BIT ∧
    (manchester_bitbang_configure cps context).2.delays T_3TO4_BIT
      ≥ (manchester_bitbang_configure cps context).2.delays T_HALF_BIT ∧
    (3200 ≤ cps →
      (manchester_bitbang_configure cps context).2.delays T_STOP_BIT
        > (manchester_bitbang_configure cps context).2.delays T_3TO4_BIT ∧
      (manchester_bitbang_configure cps context).2.delays T_3TO4_BIT
        > (manchester_bitbang_configure cps context).2.delays T_HALF_BIT) := by
  obtain ⟨e1, e2, e3, e4, e5⟩ := configure_delays cps context hc
  rw [e1, e2, e4, e5]
  refine ⟨by omega, by omega, by omega, ?_⟩
  intro h
  constructor <;> omega

/-- C8, counterexample. On a 32768 Hz clock `resetThreshold` and `idleThreshold`
are both 181 ticks: the first is not greater than the second. -/
theorem configure_order_counterexample :
    ¬ ((manchester_bitbang_configure 32768 zero_context).2.delays T_BACKWARD_STOP_MIN
        > (manchester_bitbang_configure 32768 zero_context).2.delays T_STOP_BIT ∧
      (manchester_bitbang_configure 32768 zero_context).2.delays T_STOP_BIT
        > (manchester_bitbang_configure 32768 zero_context).2.delays T_3TO4_BIT ∧
      (manchester_bitbang_configure 32768 zero_context).2.delays T_3TO4_BIT
        > (manchester_bitbang_configure 32768 zero_context).2.delays T_HALF_BIT) := by
  decide

theorem configure_ceiling_witness :
    ((32768 : Nat) < 4294967296) ∧
    ((manchester_bitbang_configure 32768 zero_context).2.delays T_HALF_BIT
      = ceil_div (32768 * 416667) 1000000000
        + (if 32768 * 416667 % 1000000000 = 0 then 1 else 0) ∧
    (manchester_bitbang_configure 32768 zero_context).2.delays T_3TO4_BIT
      = ceil_div (32768 * 625000) 1000000000
        + (if 32768 * 625000 % 1000000000 = 0 then 1 else 0) ∧
    (manchester_bitbang_configure 32768 zero_context).2.delays T_FULL_BIT
      = ceil_div (32768 * 833333) 1000000000
        + (if 32768 * 833333 % 1000000000 = 0 then 1 else 0) ∧
    (manchester_bitbang_configure 32768 zero_context).2.delays T_STOP_BIT
      = ceil_div (32768 * 5500000) 1000000000
        + (if 32768 * 5500000 % 1000000000 = 0 then 1 else 0) ∧
    (manchester_bitbang_configure 32768 zero_context).2.delays T_BACKWARD_STOP_MIN
      = ceil_div (32768 * 5500) 1000000 + (if 32768 * 5500 % 1000000 = 0 then 1 else 0)) :=
  ⟨by decide, configure_ceiling 32768 zero_context (by decide)⟩

theorem configure_order_witness :
    ((32768 : Nat) < 4294967296) ∧
    ((manchester_bitbang_configure 32768 zero_context).2.delays T_BACKWARD_STOP_MIN
      = (manchester_bitbang_configure 32768 zero_context).2.delays T_STOP_BIT ∧
    (manchester_bitbang_configure 32768 zero_context).2.delays T_STOP_BIT
      ≥ (manchester_bitbang_configure 32768 zero_context).2.delays T_3TO4_BIT ∧
    (manchester_bitbang_configure 32768 zero_context).2.delays T_3TO4_BIT
      ≥ (manchester_bitbang_configure 32768 zero_context).2.delays T_HALF_BIT ∧
    (3200 ≤ 32768 →
      (manchester_bitbang_configure 32768 zero_context).2.delays T_STOP_BIT
        > (manchester_bitbang_configure 32768 zero_context).2.delays T_3TO4_BIT ∧
      (manchester_bitbang_configure 32768 zero_context).2.delays T_3TO4_BIT
        > (manchester_bitbang_configure 32768 zero_context).2.delays T_HALF_BIT)) :=
  ⟨by decide, configure_order 32768 zero_context (by decide)⟩

/-- The clock rates at which one half-bit is a short interval and two half-bits
are a long one. -/
theorem configure_chain_iff (cps : Nat) (context : manchester_bitbang)
    (hc : cps < 4294967296) :
    (((manchester_bitbang_configure cps context).2.delays T_HALF_BIT
        ≤ (manchester_bitbang_configure cps context).2.delays T_3TO4_BIT ∧
      (manchester_bitbang_configure cps context).2.delays T_3TO4_BIT
        < 2 * (manchester_bitbang_configure cps context).2.delays T_HALF_BIT ∧
      2 * (manchester_bitbang_configure cps context).2.delays T_HALF_BIT
        ≤ (manchester_bitbang_configure cps context).2.delays T_BACKWARD_STOP_MIN) ↔
      ((182 ≤ cps ∧ cps < 1600) ∨ 2400 ≤ cps)) := by
  obtain ⟨e1, e2, _, _, e5⟩ := configure_delays cps context hc
  rw [e1, e2, e5]
  constructor
  · intro h
    by_contra hn
    have hn2 : cps < 182 ∨ (1600 ≤ cps ∧ cps < 2400) := by omega
    rcases hn2 with h0 | h0
    · have b1 : cps * 416667 / 1000000000 = 0 := by omega
      have b2 : cps * 5500 / 1000000 = 0 := by omega
      omega
    · have b1 : cps * 416667 / 1000000000 = 0 := by omega
      have b2 : cps * 625000 / 1000000000 = 1 := by omega
      omega
  · intro h
    rcases h with ⟨h0, h1⟩ | h0
    · have b1 : cps * 416667 / 1000000000 = 0 := by omega
      have b2 : cps * 625000 / 1000000000 = 0 := by omega
      have b3 : 1 ≤ cps * 5500 / 1000000 := by omega
      omega
    · rcases Nat.lt_or_ge cps 4800 with h | h
      · have b1 : cps * 416667 / 1000000000 = 1 := by omega
        have b2 : cps * 625000 / 1000000000 ≤ 2 := by omega
        have b3 : 13 ≤ cps * 5500 / 1000000 := by omega
        omega
      · refine ⟨by omega, by omega, by omega⟩

/-- C9 (amended). With the table of `manchester_bitbang_configure`, for a clock rate
below `2^32`: `halfBit <= shortLongBoundary < 2 * halfBit <= resetThreshold`
holds exactly for the clock rates from 182 to 1599 and from 2400 on, and at
these rates, from every receiver state, `manchester_bitbang_toggle_rx` called
for an edge one half-bit after the previous one takes its short branch (the
count goes up by one, `last_bit` is kept) and called for an edge two half-bits
after the previous one takes its long branch (the count goes up by two,
`last_bit` is complemented), neither short nor reset. -/
theorem configure_thresholds (cps : Nat) (context : manchester_bitbang)
    (hc : cps < 4294967296) :
    (((manchester_bitbang_configure cps context).2.delays T_HALF_BIT
        ≤ (manchester_bitbang_configure cps context).2.delays T_3TO4_BIT ∧
      (manchester_bitbang_configure cps context).2.delays T_3TO4_BIT
        < 2 * (manchester_bitbang_configure cps context).2.delays T_HALF_BIT ∧
      2 * (manchester_bitbang_configure cps context).2.delays T_HALF_BIT
        ≤ (manchester_bitbang_configure cps context).2.delays T_BACKWARD_STOP_MIN) ↔
      ((182 ≤ cps ∧ cps < 1600) ∨ 2400 ≤ cps)) ∧
    (((182 ≤ cps ∧ cps < 1600) ∨ 2400 ≤ cps) →
      rx_branch (manchester_bitbang_configure cps context).2
        (u32 ((manchester_bitbang_configure cps context).2.last +
          (manchester_bitbang_configure cps context).2.delays T_HALF_BIT)) = Branch.short ∧
      rx_branch (manchester_bitbang_configure cps context).2
        (u32 ((manchester_bitbang_configure cps context).2.last +
          2 * (manchester_bitbang_configure cps context).2.delays T_HALF_BIT))
            = Branch.long ∧
      (rx_of (manchester_bitbang_toggle_rx (manchester_bitbang_configure cps context).2
          (u32 ((manchester_bitbang_configure cps context).2.last +
            (manchester_bitbang_configure cps context).2.delays T_HALF_BIT)))
          = rx_update Branch.short (rx_of (manchester_bitbang_configure cps context).2) ∧
        (manchester_bitbang_toggle_rx (manchester_bitbang_configure cps context).2
          (u32 ((manchester_bitbang_configure cps context).2.last +
            (manchester_bitbang_configure cps context).2.delays T_HALF_BIT))
          ).received_half_bits
          = u8 ((manchester_bitbang_configure cps context).2.received_half_bits + 1) ∧
        (manchester_bitbang_toggle_rx (manchester_bitbang_configure cps context).2
          (u32 ((manchester_bitbang_configure cps context).2.last +
            (manchester_bitbang_configure cps context).2.delays T_HALF_BIT))).last_bit
          = (manchester_bitbang_configure cps context).2.last_bit) ∧
      (rx_of (manchester_bitbang_toggle_rx (manchester_bitbang_configure cps context).2
          (u32 ((manchester_bitbang_configure cps context).2.last +
            2 * (manchester_bitbang_configure cps context).2.delays T_HALF_BIT)))
          = rx_update Branch.long (rx_of (manchester_bitbang_configure cps context).2) ∧
        (manchester_bitbang_toggle_rx (manchester_bitbang_configure cps context).2
          (u32 ((manchester_bitbang_configure cps context).2.last +
            2 * (manchester_bitbang_configure cps context).2.delays T_HALF_BIT))
          ).received_half_bits
          = u8 ((manchester_bitbang_configure cps context).2.received_half_bits + 2) ∧
        (manchester_bitbang_toggle_rx (manchester_bitbang_configure cps context).2
          (u32 ((manchester_bitbang_configure cps context).2.last +
            2 * (manchester_bitbang_configure cps context).2.delays T_HALF_BIT))).last_bit
          = lnot8 (manchester_bitbang_configure cps context).2.last_bit)) := by
  have hiff := configure_chain_iff cps context hc
  refine ⟨hiff, fun hr => ?_⟩
  obtain ⟨a1, a2, a3⟩ := hiff.mpr hr
  have a4 : (manchester_bitbang_configure cps context).2.delays T_BACKWARD_STOP_MIN
      < 4294967296 := by
    rw [(configure_delays cps context hc).2.2.2.2]; omega
  generalize (manchester_bitbang_configure cps context).2 = c at a1 a2 a3 a4 ⊢
  have es : sub32 (u32 (c.last + c.delays T_HALF_BIT)) c.last = c.delays T_HALF_BIT :=
    sub32_u32_add _ _ (by omega)
  have el : sub32 (u32 (c.last + 2 * c.delays T_HALF_BIT)) c.last = 2 * c.delays T_HALF_BIT :=
    sub32_u32_add _ _ (by omega)
  have s1 : ¬ sub32 (u32 (c.last + c.delays T_HALF_BIT)) c.last
      > c.delays T_BACKWARD_STOP_MIN := by rw [es]; omega
  have s2 : ¬ sub32 (u32 (c.last + c.delays T_HALF_BIT)) c.last > c.delays T_3TO4_BIT := by
    rw [es]; omega
  have l1 : ¬ sub32 (u32 (c.last + 2 * c.delays T_HALF_BIT)) c.last
      > c.delays T_BACKWARD_STOP_MIN := by rw [el]; omega
  have l2 : sub32 (u32 (c.last + 2 * c.delays T_HALF_BIT)) c.last > c.delays T_3TO4_BIT := by
    rw [el]; omega
  have hs : rx_branch c (u32 (c.last + c.delays T_HALF_BIT)) = Branch.short := by
    unfold rx_branch delay_branch
    rw [if_neg s1, if_neg s2]
  have hl : rx_branch c (u32 (c.last + 2 * c.delays T_HALF_BIT)) = Branch.long := by
    unfold rx_branch delay_branch
    rw [if_neg l1, if_pos l2]
  refine ⟨hs, hl, ⟨?_, ?_, ?_⟩, ⟨?_, ?_, ?_⟩⟩
  · rw [rx_of_toggle_rx, hs]
  · rw [toggle_rx_of_short c _ s1 s2]
  · rw [toggle_rx_of_short c _ s1 s2]
  · rw [rx_of_toggle_rx, hl]
  · rw [toggle_rx_of_long c _ l1 l2]
  · rw [toggle_rx_of_long c _ l1 l2]

theorem configure_thresholds_witness :
    ((32768 : Nat) < 4294967296) ∧
    ((((manchester_bitbang_configure 32768 zero_context).2.delays T_HALF_BIT
        ≤ (manchester_bitbang_configure 32768 zero_context).2.delays T_3TO4_BIT ∧
      (manchester_bitbang_configure 32768 zero_context).2.delays T_3TO4_BIT
        < 2 * (manchester_bitbang_configure 32768 zero_context).2.delays T_HALF_BIT ∧
      2 * (manchester_bitbang_configure 32768 zero_context).2.delays T_HALF_BIT
        ≤ (manchester_bitbang_configure 32768 zero_context).2.delays T_BACKWARD_STOP_MIN) ↔
      ((182 ≤ 32768 ∧ 32768 < 1600) ∨ 2400 ≤ 32768)) ∧
    (((182 ≤ 32768 ∧ 32768 < 1600) ∨ 2400 ≤ 32768) →
      rx_branch (manchester_bitbang_configure 32768 zero_context).2
        (u32 ((manchester_bitbang_configure 32768 zero_context).2.last +
          (manchester_bitbang_configure 32768 zero_context).2.delays T_HALF_BIT)) = Branch.short ∧
      rx_branch (manchester_bitbang_configure 32768 zero_context).2
        (u32 ((manchester_bitbang_configure 32768 zero_context).2.last +
          2 * (manchester_bitbang_configure 32768 zero_context).2.delays T_HALF_BIT))
            = Branch.long ∧
      (rx_of (manchester_bitbang_toggle_rx (manchester_bitbang_configure 32768 zero_context).2
          (u32 ((manchester_bitbang_configure 32768 zero_context).2.last +
            (manchester_bitbang_configure 32768 zero_context).2.delays T_HALF_BIT)))
          = rx_update Branch.short (rx_of (manchester_bitbang_configure 32768 zero_context).2) ∧
        (manchester_bitbang_toggle_rx (manchester_bitbang_configure 32768 zero_context).2
          (u32 ((manchester_bitbang_configure 32768 zero_context).2.last +
            (manchester_bitbang_configure 32768 zero_context).2.delays T_HALF_BIT))
          ).received_half_bits
          = u8 ((manchester_bitbang_configure 32768 zero_context).2.received_half_bits + 1) ∧
        (manchester_bitbang_toggle_rx (manchester_bitbang_configure 32768 zero_context).2
          (u32 ((manchester_bitbang_configure 32768 zero_context).2.last +
            (manchester_bitbang_configure 32768 zero_context).2.delays T_HALF_BIT))).last_bit
          = (manchester_bitbang_configure 32768 zero_context).2.last_bit) ∧
      (rx_of (manchester_bitbang_toggle_rx (manchester_bitbang_configure 32768 zero_context).2
          (u32 ((manchester_bitbang_configure 32768 zero_context).2.last +
            2 * (manchester_bitbang_configure 32768 zero_context).2.delays T_HALF_BIT)))
          = rx_update Branch.long (rx_of (manchester_bitbang_configure 32768 zero_context).2) ∧
        (manchester_bitbang_toggle_rx (manchester_bitbang_configure 32768 zero_context).2
          (u32 ((manchester_bitbang_configure 32768 zero_context).2.last +
            2 * (manchester_bitbang_configure 32768 zero_context).2.delays T_HALF_BIT))
          ).received_half_bits
          = u8 ((manchester_bitbang_configure 32768 zero_context).2.received_half_bits + 2) ∧
        (manchester_bitbang_toggle_rx (manchester_bitbang_configure 32768 zero_context).2
          (u32 ((manchester_bitbang_configure 32768 zero_context).2.last +
            2 * (manchester_bitbang_configure 32768 zero_context).2.delays T_HALF_BIT))).last_bit
          = lnot8 (manchester_bitbang_configure 32768 zero_context).2.last_bit))) :=
  ⟨by decide, configure_thresholds 32768 zero_context (by decide)⟩

/-- C9, counterexample. On a 2000 Hz clock `halfBit` is 1 tick and
`shortLongBoundary` is 2 ticks: `manchester_bitbang_toggle_rx` called for an
edge two half-bits after the previous one takes its short branch, it counts one
half-bit and keeps `last_bit`. -/
theorem configure_thresholds_counterexample :
    ¬ ((manchester_bitbang_configure 2000 zero_context).2.delays T_3TO4_BIT
        < 2 * (manchester_bitbang_configure 2000 zero_context).2.delays T_HALF_BIT) ∧
    rx_branch (manchester_bitbang_configure 2000 zero_context).2
      (u32 ((manchester_bitbang_configure 2000 zero_context).2.last +
        2 * (manchester_bitbang_configure 2000 zero_context).2.delays T_HALF_BIT))
          = Branch.short ∧
    rx_of (manchester_bitbang_toggle_rx (manchester_bitbang_configure 2000 zero_context).2
        (u32 ((manchester_bitbang_configure 2000 zero_context).2.last +
          2 * (manchester_bitbang_configure 2000 zero_context).2.delays T_HALF_BIT)))
      = rx_update Branch.short (rx_of (manchester_bitbang_configure 2000 zero_context).2) ∧
    rx_of (manchester_bitbang_toggle_rx (manchester_bitbang_configure 2000 zero_context).2
        (u32 ((manchester_bitbang_configure 2000 zero_context).2.last +
          2 * (manchester_bitbang_configure 2000 zero_context).2.delays T_HALF_BIT)))
      ≠ rx_update Branch.long (rx_of (manchester_bitbang_configure 2000 zero_context).2) ∧
    (manchester_bitbang_toggle_rx (manchester_bitbang_configure 2000 zero_context).2
        (u32 ((manchester_bitbang_configure 2000 zero_context).2.last +
          2 * (manchester_bitbang_configure 2000 zero_context).2.delays T_HALF_BIT))
          ).received_half_bits
      = 1 ∧
    (manchester_bitbang_toggle_rx (manchester_bitbang_configure 2000 zero_context).2
        (u32 ((manchester_bitbang_configure 2000 zero_context).2.last +
          2 * (manchester_bitbang_configure 2000 zero_context).2.delays T_HALF_BIT))).last_bit
      = (manchester_bitbang_configure 2000 zero_context).2.last_bit := by
  decide

/-- The room that the configured thresholds leave around one and two half-bits,
for a half-bit of at least 10 ticks. -/
theorem configure_tolerance (cps : Nat) (context : manchester_bitbang) (hc : cps < 4294967296)
    (hh : 10 ≤ (manchester_bitbang_configure cps context).2.delays T_HALF_BIT) :
    (manchester_bitbang_configure cps context).2.delays T_HALF_BIT
        + 2 * ((manchester_bitbang_configure cps context).2.delays T_HALF_BIT / 10)
        ≤ (manchester_bitbang_configure cps context).2.delays T_3TO4_BIT ∧
    (manchester_bitbang_configure cps context).2.delays T_3TO4_BIT
        + 2 * ((manchester_bitbang_configure cps context).2.delays T_HALF_BIT / 10)
        < 2 * (manchester_bitbang_configure cps context).2.delays T_HALF_BIT ∧
    2 * (manchester_bitbang_configure cps context).2.delays T_HALF_BIT
        + 2 * ((manchester_bitbang_configure cps context).2.delays T_HALF_BIT / 10)
        ≤ (manchester_bitbang_configure cps context).2.delays T_BACKWARD_STOP_MIN ∧
    (manchester_bitbang_configure cps context).2.delays T_BACKWARD_STOP_MIN < 4294967296 := by
  obtain ⟨e1, e2, _, _, e5⟩ := configure_delays cps context hc
  rw [e1] at hh
  rw [e1, e2, e5]
  refine ⟨by omega, by omega, by omega, by omega⟩

/-! ## Round trip under jitter -/

/-- The edges of a start bit and a byte, as the first edge and the timestamps
that follow it. -/
theorem frame_edges_stamps (context : manchester_bitbang) (b t0 : Nat) :
    line_edges true t0 (write_bit context 1 ++ write_byte context b) =
      t0 :: stamps (context.delays T_HALF_BIT) t0 (1 :: gaps true (byte_bits b)) := by
  rw [frame_edges]
  simp only [stamps, one_mul]

/-- Jitter within the room of the thresholds does not change what the receiver
reads from a frame, when the first edge is a reset with and without it. -/
theorem jitter_keeps_fields (context : manchester_bitbang) (b t0 j : Nat) (d0 : Int)
    (ds : List Int)
    (h1 : context.delays T_HALF_BIT + 2 * j ≤ context.delays T_3TO4_BIT)
    (h2 : context.delays T_3TO4_BIT + 2 * j < 2 * context.delays T_HALF_BIT)
    (h3 : 2 * context.delays T_HALF_BIT + 2 * j ≤ context.delays T_BACKWARD_STOP_MIN)
    (h4 : context.delays T_BACKWARD_STOP_MIN < 4294967296)
    (hlen : (d0 :: ds).length =
      (line_edges true t0 (write_bit context 1 ++ write_byte context b)).length)
    (hds : ∀ d ∈ d0 :: ds, d.natAbs ≤ j)
    (hfirst : sub32 t0 context.last > context.delays T_BACKWARD_STOP_MIN)
    (hmoved : sub32 (shift_stamp t0 d0) context.last > context.delays T_BACKWARD_STOP_MIN) :
    rx_of (feed_edges context
        (jitter (line_edges true t0 (write_bit context 1 ++ write_byte context b)) (d0 :: ds))) =
      rx_of (feed_edges context
        (line_edges true t0 (write_bit context 1 ++ write_byte context b))) := by
  have hideal := frame_branches context b t0 (by omega) (by omega) (by omega) hfirst
  rw [rx_of_feed_edges, rx_of_feed_edges, hideal]
  rw [frame_edges_stamps] at hlen ⊢
  have hlen2 : ds.length = (1 :: gaps true (byte_bits b)).length := by
    have hs : ∀ (gs : List Nat) (l : Nat),
        (stamps (context.delays T_HALF_BIT) l gs).length = gs.length := by
      intro gs
      induction gs with
      | nil => intro l; rfl
      | cons g gs ih => intro l; simp [stamps, ih]
    simp only [List.length_cons, hs] at hlen ⊢
    omega
  have hg : ∀ g ∈ 1 :: gaps true (byte_bits b), g = 1 ∨ g = 2 := by
    intro g hg
    rcases List.mem_cons.mp hg with rfl | hg
    · exact Or.inl rfl
    · exact gaps_mem _ _ _ hg
  have hj := branches_jitter context.delays (context.delays T_HALF_BIT) j h1 h2 h3 h4
    (1 :: gaps true (byte_bits b)) t0 d0 ds hg (hds d0 (List.mem_cons_self _ _))
    (fun d hd => hds d (List.mem_cons_of_mem _ hd)) hlen2
  simp only [jitter, List.zipWith_cons_cons, branches] at hj ⊢
  rw [hj]
  simp only [delay_branch, if_pos hmoved, List.map_cons, gap_branch, if_true]


/-- C10 (amended). Round trip under jitter. For every byte `b` and every clock rate for
which `manchester_bitbang_configure` gives a half-bit of at least 10 ticks:
when every edge timestamp of the start bit and `b` is moved by at most 10% of
the half-bit, and the first edge comes more than `resetThreshold` ticks after
the previous edge both before and after it is moved, the receiver ends with the
same `rx_buf`, `received_half_bits`, `rx_buf_rdy` and `last_bit` as without
jitter, and the low byte of `rx_buf` is `b`. -/
theorem roundtrip_jitter (cps : Nat) (c0 context : manchester_bitbang) (b t0 : Nat) (d0 : Int)
    (ds : List Int)
    (hc : cps < 4294967296)
    (hcfg : context = (manchester_bitbang_configure cps c0).2)
    (hh : 10 ≤ context.delays T_HALF_BIT)
    (hb : b < 256)
    (hlen : (d0 :: ds).length =
      (line_edges true t0 (write_bit context 1 ++ write_byte context b)).length)
    (hds : ∀ d ∈ d0 :: ds, 10 * d.natAbs ≤ context.delays T_HALF_BIT)
    (hfirst : sub32 t0 context.last > context.delays T_BACKWARD_STOP_MIN)
    (hmoved : sub32 (shift_stamp t0 d0) context.last > context.delays T_BACKWARD_STOP_MIN) :
    rx_of (feed_edges context
        (jitter (line_edges true t0 (write_bit context 1 ++ write_byte context b)) (d0 :: ds))) =
      rx_of (feed_edges context
        (line_edges true t0 (write_bit context 1 ++ write_byte context b))) ∧
    (feed_edges context
        (jitter (line_edges true t0 (write_bit context 1 ++ write_byte context b))
          (d0 :: ds))).rx_buf &&& 0xFF = b := by
  have htol : context.delays T_HALF_BIT + 2 * (context.delays T_HALF_BIT / 10)
        ≤ context.delays T_3TO4_BIT ∧
      context.delays T_3TO4_BIT + 2 * (context.delays T_HALF_BIT / 10)
        < 2 * context.delays T_HALF_BIT ∧
      2 * context.delays T_HALF_BIT + 2 * (context.delays T_HALF_BIT / 10)
        ≤ context.delays T_BACKWARD_STOP_MIN ∧
      context.delays T_BACKWARD_STOP_MIN < 4294967296 := by
    rw [hcfg] at hh ⊢
    exact configure_tolerance cps c0 hc hh
  obtain ⟨t1, t2, t3, t4⟩ := htol
  have hsame := jitter_keeps_fields context b t0 (context.delays T_HALF_BIT / 10) d0 ds
    t1 t2 t3 t4 hlen (fun d hd => by have := hds d hd; omega) hfirst hmoved
  refine ⟨hsame, ?_⟩
  have hbyte : (feed_edges context
      (line_edges true t0 (write_bit context 1 ++ write_byte context b))).rx_buf &&& 0xFF = b := by
    rw [frame_rx_buf context b t0 hb (by omega) (by omega) (by omega) hfirst]
    exact and_255_of_frame b hb
  have hbuf : (feed_edges context
      (jitter (line_edges true t0 (write_bit context 1 ++ write_byte context b))
        (d0 :: ds))).rx_buf =
      (feed_edges context
        (line_edges true t0 (write_bit context 1 ++ write_byte context b))).rx_buf :=
    congrArg rx_fields.rx_buf hsame
  rw [hbuf]
  exact hbyte

theorem roundtrip_jitter_witness :
    ((32768 : Nat) < 4294967296 ∧
      clock_32k_context = (manchester_bitbang_configure 32768 zero_context).2 ∧
      10 ≤ clock_32k_context.delays T_HALF_BIT ∧
      (0xA5 : Nat) < 256 ∧
      ((1 : Int) :: [-1, 1, 0, -1, 1, 1, -1, 0, 1, -1, 0]).length =
        (line_edges true 1000
          (write_bit clock_32k_context 1 ++ write_byte clock_32k_context 0xA5)).length ∧
      (∀ d ∈ (1 : Int) :: [-1, 1, 0, -1, 1, 1, -1, 0, 1, -1, 0],
        10 * d.natAbs ≤ clock_32k_context.delays T_HALF_BIT) ∧
      sub32 1000 clock_32k_context.last > clock_32k_context.delays T_BACKWARD_STOP_MIN ∧
      sub32 (shift_stamp 1000 1) clock_32k_context.last
        > clock_32k_context.delays T_BACKWARD_STOP_MIN) ∧
    (rx_of (feed_edges clock_32k_context
        (jitter (line_edges true 1000
          (write_bit clock_32k_context 1 ++ write_byte clock_32k_context 0xA5))
          ((1 : Int) :: [-1, 1, 0, -1, 1, 1, -1, 0, 1, -1, 0]))) =
      rx_of (feed_edges clock_32k_context
        (line_edges true 1000
          (write_bit clock_32k_context 1 ++ write_byte clock_32k_context 0xA5))) ∧
    (feed_edges clock_32k_context
        (jitter (line_edges true 1000
          (write_bit clock_32k_context 1 ++ write_byte clock_32k_context 0xA5))
          ((1 : Int) :: [-1, 1, 0, -1, 1, 1, -1, 0, 1, -1, 0]))).rx_buf &&& 0xFF = 0xA5) :=
  ⟨⟨by decide, rfl, by decide, by decide, by rw [write_byte_eq]; decide, by decide, by decide,
      by decide⟩,
    roundtrip_jitter 32768 zero_context clock_32k_context 0xA5 1000 1
      [-1, 1, 0, -1, 1, 1, -1, 0, 1, -1, 0] (by decide) rfl (by decide) (by decide)
      (by rw [write_byte_eq]; decide) (by decide) (by decide) (by decide)⟩

set_option maxRecDepth 100000 in
/-- C10, counterexample. On a 32768 Hz clock (`halfBit` 14 ticks, `resetThreshold`
181 ticks) a receiver that holds a frame sees the first edge of start bit and
`0xFF` 182 ticks after the previous edge. Moved one tick earlier, that edge is
no reset but a long interval, and the low byte read is not `0xFF`. -/
theorem roundtrip_jitter_counterexample :
    10 ≤ jitter_context.delays T_HALF_BIT ∧
    ((-1 : Int) :: List.replicate 17 0).length =
      (line_edges true 5182
        (write_bit jitter_context 1 ++ write_byte jitter_context 0xFF)).length ∧
    (∀ d ∈ (-1 : Int) :: List.replicate 17 0,
      10 * d.natAbs ≤ jitter_context.delays T_HALF_BIT) ∧
    sub32 5182 jitter_context.last > jitter_context.delays T_BACKWARD_STOP_MIN ∧
    rx_of (feed_edges jitter_context
        (jitter (line_edges true 5182
          (write_bit jitter_context 1 ++ write_byte jitter_context 0xFF))
          ((-1 : Int) :: List.replicate 17 0))) ≠
      rx_of (feed_edges jitter_context
        (line_edges true 5182
          (write_bit jitter_context 1 ++ write_byte jitter_context 0xFF))) ∧
    (feed_edges jitter_context
        (jitter (line_edges true 5182
          (write_bit jitter_context 1 ++ write_byte jitter_context 0xFF))
          ((-1 : Int) :: List.replicate 17 0))).rx_buf &&& 0xFF ≠ 0xFF := by
  rw [write_byte_eq]
  decide

/-! ## The transfer sequence and its result -/

theorem and_two_pow_level (x k : Nat) :
    decide (((x &&& 2 ^ k : Nat) : Int) ≠ 0) = x.testBit k := by
  have h : x &&& 2 ^ k = if x.testBit k then 2 ^ k else 0 := by
    apply Nat.eq_of_testBit_eq
    intro i
    rw [Nat.testBit_and, Nat.testBit_two_pow]
    by_cases hx : x.testBit k
    · rw [if_pos hx, Nat.testBit_two_pow]
      by_cases hi : k = i
      · subst hi; simp [hx]
      · simp [hi]
    · rw [if_neg hx]
      by_cases hi : k = i
      · subst hi; simp [hx]
      · simp [hi]
  rw [h]
  by_cases hx : x.testBit k <;> simp [hx]

theorem act_of_write_bit (context : manchester_bitbang) (bit : Int) :
    (write_bit context bit).map act_of =
      spec_bit (context.delays T_HALF_BIT) (decide (bit ≠ 0)) := by
  simp only [write_bit, manchester_set_tx, manchester_delay, List.map_append, List.map_cons,
    List.map_nil, act_of, lnot_level, spec_bit]
  rfl

theorem act_of_write_bits_byte (context : manchester_bitbang) (x : Nat) :
    (write_bits context (byte_bits x)).map act_of = spec_byte (context.delays T_HALF_BIT) x := by
  have e7 : decide (((x &&& 128 : Nat) : Int) ≠ 0) = x.testBit 7 := and_two_pow_level x 7
  have e6 : decide (((x &&& 64 : Nat) : Int) ≠ 0) = x.testBit 6 := and_two_pow_level x 6
  have e5 : decide (((x &&& 32 : Nat) : Int) ≠ 0) = x.testBit 5 := and_two_pow_level x 5
  have e4 : decide (((x &&& 16 : Nat) : Int) ≠ 0) = x.testBit 4 := and_two_pow_level x 4
  have e3 : decide (((x &&& 8 : Nat) : Int) ≠ 0) = x.testBit 3 := and_two_pow_level x 3
  have e2 : decide (((x &&& 4 : Nat) : Int) ≠ 0) = x.testBit 2 := and_two_pow_level x 2
  have e1 : decide (((x &&& 2 : Nat) : Int) ≠ 0) = x.testBit 1 := and_two_pow_level x 1
  have e0 : decide (((x &&& 1 : Nat) : Int) ≠ 0) = x.testBit 0 := and_two_pow_level x 0
  simp only [byte_bits, write_bits, List.map_append, act_of_write_bit, List.map_nil,
    List.append_nil, spec_byte, e7, e6, e5, e4, e3, e2, e1, e0, List.append_assoc]

/-- C5. Ordered transfer sequence. For every address byte `a` and first data
byte `d`, the calls and delays of `manchester_bitbang_transfer` are, in order:
`disable_rx`; the start bit 1 (low, a half-bit, high, a half-bit); the 8 bits
of `a`, most significant first; the 8 bits of `d`, most significant first; the
high level and a wait of `idleThreshold`; `enable_rx`. So `disable_rx` is the
first call, `enable_rx` the last, `set_tx` is called 35 times and the delays
sum to `34 * halfBit + idleThreshold`. -/
theorem transfer_sequence (context : manchester_bitbang) (n a d len flags : Nat)
    (rest : List Nat) :
    (manchester_bitbang_transfer context
        { buf := d :: rest, len := len, flags := flags } n a).2.map act_of =
      spec_transfer (context.delays T_HALF_BIT) (context.delays T_STOP_BIT) a d ∧
    (manchester_bitbang_transfer context
        { buf := d :: rest, len := len, flags := flags } n a).2.head? = some Ev.disable_rx ∧
    (manchester_bitbang_transfer context
        { buf := d :: rest, len := len, flags := flags } n a).2.getLast? = some Ev.enable_rx ∧
    (manchester_bitbang_transfer context
        { buf := d :: rest, len := len, flags := flags } n a).2.countP is_set_tx = 35 ∧
    ((manchester_bitbang_transfer context
        { buf := d :: rest, len := len, flags := flags } n a).2.map delay_of).sum =
      34 * context.delays T_HALF_BIT + context.delays T_STOP_BIT := by
  have hcalls : (manchester_bitbang_transfer context
      { buf := d :: rest, len := len, flags := flags } n a).2 =
      Ev.disable_rx :: (write_bit context 1 ++ (write_bits context (byte_bits a) ++
        (write_bits context (byte_bits d) ++ (write_idle context ++ [Ev.enable_rx])))) := by
    simp only [manchester_bitbang_transfer, manchester_disable_rx, manchester_enable_rx,
      List.headD_cons, write_byte_eq, List.append_assoc, List.singleton_append]
    rfl
  rw [hcalls]
  refine ⟨?_, rfl, ?_, ?_, ?_⟩
  · simp only [List.map_cons, List.map_append, act_of_write_bit, act_of_write_bits_byte,
      spec_transfer, write_idle, manchester_set_tx, manchester_delay, List.map_nil, act_of]
    rfl
  · rw [← List.cons_append, ← List.append_assoc, ← List.append_assoc, ← List.append_assoc]
    exact List.getLast?_concat _
  · simp [byte_bits, write_bits, write_bit, write_idle, manchester_set_tx, manchester_delay,
      is_set_tx, List.countP_cons, List.countP_append]
  · simp [byte_bits, write_bits, write_bit, write_idle, manchester_set_tx, manchester_delay,
      delay_of]
    ring

/-- C6. The value that `manchester_bitbang_transfer` returns when the
`enable_rx` capability fails with `-5`: it is 0, the failure is not passed on. -/
theorem transfer_returns_zero_on_enable_rx_failure :
    failing_rx_context.io.enable_rx = -5 ∧
    (manchester_bitbang_transfer failing_rx_context one_byte_msg 1 0x01).1 = 0 ∧
    (manchester_bitbang_transfer failing_rx_context one_byte_msg 1 0x01).1
      ≠ failing_rx_context.io.enable_rx := by
  decide

/-! ## The transmitter, bit by bit -/

theorem stamps_length (h : Nat) (gs : List Nat) :
    ∀ (last : Nat), (stamps h last gs).length = gs.length := by
  induction gs with
  | nil => intro last; rfl
  | cons g gs ih => intro last; simp [stamps, ih]

/-- The number of edges of a transfer: two for the start bit, one for each gap
of the sixteen bits, and one for the idle level when the last bit is 0. -/
theorem transfer_edges_length (context : manchester_bitbang) (msg : manchester_msg)
    (n a d t0 : Nat) (rest : List Nat) (hmsg : msg.buf = d :: rest) :
    (line_edges true t0 (manchester_bitbang_transfer context msg n a).2).length =
      2 + (gaps true (byte_bits a ++ byte_bits d)).length +
        (if end_level true (byte_bits a ++ byte_bits d) then 0 else 1) := by
  rw [transfer_edges context msg n a d t0 rest hmsg]
  simp only [List.length_cons, List.length_append, stamps_length]
  cases end_level true (byte_bits a ++ byte_bits d) <;> simp <;> omega

/-- C11 (amended). The levels that `manchester_bitbang_transfer` drives for address
`0x01` and data `0xFF` on an idle-high line change exactly 32 times, whatever
the context, the start time and the rest of the message: the receiver is
called 32 times for that frame. -/
theorem transfer_edge_count (context : manchester_bitbang) (n len flags t0 : Nat)
    (rest : List Nat) :
    (line_edges true t0
      (manchester_bitbang_transfer context
        { buf := 0xFF :: rest, len := len, flags := flags } n 0x01).2).length = 32 := by
  rw [transfer_edges_length context _ n 0x01 0xFF t0 rest rfl]
  decide

/-- C11, counterexample. On a 32768 Hz clock the transfer of address `0x01` and
data `0xFF` does not give 34 edges. -/
theorem transfer_edge_count_counterexample :
    (line_edges true 1000
      (manchester_bitbang_transfer clock_32k_context one_byte_msg 1 0x01).2).length ≠ 34 := by
  rw [transfer_edges_length clock_32k_context one_byte_msg 1 0x01 0xFF 1000 [] rfl]
  decide

theorem and_two_pow_ne_zero (x k : Nat) :
    ((x &&& 2 ^ k : Nat) : Int) ≠ 0 ↔ x.testBit k = true := by
  have h := and_two_pow_level x k
  constructor
  · intro hx
    rw [← h]
    exact decide_eq_true hx
  · intro hx
    rw [← h] at hx
    exact of_decide_eq_true hx

/-- C12. For every byte value `v`, `write_byte` (a total function: its loop ends)
makes exactly 8 calls of `write_bit`, and call `i` (0 to 7) is made with a
value that is non-zero exactly when bit `7 - i` of `v` is 1. -/
theorem write_byte_msb_first (context : manchester_bitbang) (v : Nat) :
    write_byte context v = write_bits context (byte_bits v) ∧
    (byte_bits v).length = 8 ∧
    ∀ i : Fin 8, ((byte_bits v).getD i.val 0 ≠ 0 ↔ v.testBit (7 - i.val) = true) := by
  refine ⟨write_byte_eq context v, rfl, ?_⟩
  intro i
  fin_cases i
  · exact and_two_pow_ne_zero v 7
  · exact and_two_pow_ne_zero v 6
  · exact and_two_pow_ne_zero v 5
  · exact and_two_pow_ne_zero v 4
  · exact and_two_pow_ne_zero v 3
  · exact and_two_pow_ne_zero v 2
  · exact and_two_pow_ne_zero v 1
  · exact and_two_pow_ne_zero v 0

/-- C13. For every integer argument, `write_bit` sets the line twice, to
opposite levels, each time followed by a delay of `halfBit` ticks: the first
state is zero exactly when the bit is non-zero, the second is non-zero exactly
when the bit is non-zero. On the line, whatever its level before, the bit
period has one edge in its middle, which leaves the line at the level of the
bit, and no other edge but one at its start when the line was at that level. -/
theorem write_bit_manchester (context : manchester_bitbang) (bit : Int) (lvl : Bool) (t : Nat) :
    (∃ s1 s2 : Int,
      write_bit context bit =
        [Ev.set_tx s1, Ev.delay (context.delays T_HALF_BIT),
         Ev.set_tx s2, Ev.delay (context.delays T_HALF_BIT)] ∧
      (s1 = 0 ↔ bit ≠ 0) ∧ (s2 ≠ 0 ↔ bit ≠ 0) ∧
      decide (s1 ≠ 0) = !decide (s2 ≠ 0)) ∧
    line_edges lvl t (write_bit context bit) =
      (if decide (bit ≠ 0) = lvl then [t] else []) ++ [u32 (t + context.delays T_HALF_BIT)] := by
  constructor
  · refine ⟨lnot bit, bit, rfl, ?_, Iff.rfl, lnot_level bit⟩
    unfold lnot
    by_cases h : bit = 0 <;> simp [h]
  · have h := line_edges_write_bit context bit lvl t []
    rw [List.append_nil] at h
    rw [h]
    by_cases hb : decide (bit ≠ 0) = lvl
    · rw [if_pos hb, if_pos hb]; rfl
    · rw [if_neg hb, if_neg hb]; rfl

/-! ## The write entry, the ready flag, the count and the rounding -/

/-- C14. The calls that `manchester_write` makes do not depend on the bytes of
the buffer after the first one, nor on `num_bytes`: only `buf[0]` is put on the
line. -/
theorem manchester_write_first_byte_only (context : manchester_bitbang) (addr d : Nat)
    (rest rest2 : List Nat) (num_bytes num_bytes2 : Nat) :
    (manchester_write context addr (d :: rest) num_bytes).2 =
      (manchester_write context addr (d :: rest2) num_bytes2).2 := by
  simp [manchester_write, manchester_gpio_transfer, manchester_bitbang_transfer]

/-- C15. A call of `manchester_bitbang_toggle_rx` on a state with `rx_buf_rdy = 1`
whose elapsed time is at most `resetThreshold` leaves `rx_buf_rdy = 1`; a call
after which `rx_buf_rdy` is 0 takes the reset branch. -/
theorem ready_cleared_only_by_reset (context : manchester_bitbang) (now now2 : Nat)
    (hr : context.rx_buf_rdy = 1)
    (hle : sub32 now context.last ≤ context.delays T_BACKWARD_STOP_MIN) :
    (manchester_bitbang_toggle_rx context now).rx_buf_rdy = 1 ∧
    ((manchester_bitbang_toggle_rx context now2).rx_buf_rdy = 0 →
      rx_branch context now2 = Branch.reset) := by
  constructor
  · have h1 : ¬ sub32 now context.last > context.delays T_BACKWARD_STOP_MIN := by omega
    by_cases h2 : sub32 now context.last > context.delays T_3TO4_BIT
    · rw [toggle_rx_of_long context now h1 h2]
      simp only [hr]
      split_ifs <;> rfl
    · rw [toggle_rx_of_short context now h1 h2]
      simp only [hr]
      split_ifs <;> rfl
  · intro h0
    unfold rx_branch delay_branch
    by_cases h1 : sub32 now2 context.last > context.delays T_BACKWARD_STOP_MIN
    · rw [if_pos h1]
    · exfalso
      by_cases h2 : sub32 now2 context.last > context.delays T_3TO4_BIT
      · rw [toggle_rx_of_long context now2 h1 h2] at h0
        simp only [hr] at h0
        split_ifs at h0
      · rw [toggle_rx_of_short context now2 h1 h2] at h0
        simp only [hr] at h0
        split_ifs at h0

theorem ready_cleared_only_by_reset_witness :
    (busy_context.rx_buf_rdy = 1 ∧
      sub32 5014 busy_context.last ≤ busy_context.delays T_BACKWARD_STOP_MIN) ∧
    ((manchester_bitbang_toggle_rx busy_context 5014).rx_buf_rdy = 1 ∧
    ((manchester_bitbang_toggle_rx busy_context 5182).rx_buf_rdy = 0 →
      rx_branch busy_context 5182 = Branch.reset)) :=
  ⟨by decide, ready_cleared_only_by_reset busy_context 5014 5182 (by decide) (by decide)⟩

theorem rx_update_half_bits (k : Branch) (f : rx_fields) (hk : k ≠ Branch.reset) :
    (rx_update k f).received_half_bits = u8 (f.received_half_bits + half_bits_of [k]) := by
  cases k with
  | reset => exact absurd rfl hk
  | long =>
      simp only [rx_update, rx_ready, half_bits_of]
      split_ifs <;> rfl
  | short =>
      simp only [rx_update, rx_ready, half_bits_of]
      split_ifs <;> rfl

theorem half_bits_of_cons (k : Branch) (ks : List Branch) :
    half_bits_of (k :: ks) = half_bits_of [k] + half_bits_of ks := by
  cases k <;> simp [half_bits_of]

theorem rx_update_half_bits_lt (k : Branch) (f : rx_fields) (hk : k ≠ Branch.reset) :
    (rx_update k f).received_half_bits < 256 := by
  rw [rx_update_half_bits k f hk]
  unfold u8
  omega

/-- The count after a run of short and long intervals. -/
theorem rx_run_half_bits (ks : List Branch) :
    ∀ (f : rx_fields), f.received_half_bits < 256 → Branch.reset ∉ ks →
      (rx_run f ks).received_half_bits = u8 (f.received_half_bits + half_bits_of ks) := by
  induction ks with
  | nil =>
      intro f hf _
      simp only [rx_run, List.foldl_nil, half_bits_of, u8]
      omega
  | cons k ks ih =>
      intro f _ hn
      have hk : k ≠ Branch.reset := fun h => hn (h ▸ List.mem_cons_self _ _)
      have hks : Branch.reset ∉ ks := fun h => hn (List.mem_cons_of_mem _ h)
      have step := ih (rx_update k f) (rx_update_half_bits_lt k f hk) hks
      rw [rx_update_half_bits k f hk] at step
      simp only [rx_run, List.foldl_cons] at step ⊢
      rw [step, half_bits_of_cons k ks]
      unfold u8
      omega

/-- C16 (amended). After a reset edge followed only by short and long intervals,
`received_half_bits` is the number of short intervals plus twice the number of
long intervals, modulo 256. -/
theorem half_bits_counted (context : manchester_bitbang) (ts : List Nat) (ks : List Branch)
    (hb : branches context.delays context.last ts = Branch.reset :: ks)
    (hn : Branch.reset ∉ ks) :
    (feed_edges context ts).received_half_bits =
      (ks.count Branch.short + 2 * ks.count Branch.long) % 256 := by
  have h := rx_of_feed_edges ts context
  rw [hb] at h
  have h2 : (feed_edges context ts).received_half_bits =
      (rx_run (rx_update Branch.reset (rx_of context)) ks).received_half_bits := by
    have := congrArg rx_fields.received_half_bits h
    simpa [rx_of, rx_run] using this
  have hcount : ∀ (l : List Branch), Branch.reset ∉ l →
      half_bits_of l = l.count Branch.short + 2 * l.count Branch.long := by
    intro l
    induction l with
    | nil => intro _; rfl
    | cons k l ih =>
        intro hl
        have hl2 : Branch.reset ∉ l := fun h => hl (List.mem_cons_of_mem _ h)
        have := ih hl2
        cases k with
        | reset => exact absurd (List.mem_cons_self _ _) hl
        | long => simp [half_bits_of, List.count_cons]; omega
        | short => simp [half_bits_of, List.count_cons]; omega
  have h0 : (rx_update Branch.reset (rx_of context)).received_half_bits = 0 := by
    simp [rx_update, rx_ready]
  rw [h2, rx_run_half_bits ks _ (by rw [h0]; decide) hn, hcount ks hn, h0]
  simp [u8]

theorem half_bits_counted_witness :
    (branches clock_32k_context.delays clock_32k_context.last [1000, 1014, 1042, 1056]
        = Branch.reset :: [Branch.short, Branch.long, Branch.short] ∧
      Branch.reset ∉ [Branch.short, Branch.long, Branch.short]) ∧
    (feed_edges clock_32k_context [1000, 1014, 1042, 1056]).received_half_bits =
      ([Branch.short, Branch.long, Branch.short].count Branch.short +
        2 * [Branch.short, Branch.long, Branch.short].count Branch.long) % 256 :=
  ⟨by decide, half_bits_counted clock_32k_context [1000, 1014, 1042, 1056]
    [Branch.short, Branch.long, Branch.short] (by decide) (by decide)⟩

set_option maxRecDepth 1000000 in
/-- C16, counterexample. On a 32768 Hz clock, a reset edge followed by 128 long
intervals (edges 28 ticks apart) leaves `received_half_bits` at 0, not at 256. -/
theorem half_bits_counted_counterexample :
    branches clock_32k_context.delays clock_32k_context.last
        ((List.range 129).map (fun k => 1000 + 28 * k))
      = Branch.reset :: List.replicate 128 Branch.long ∧
    (feed_edges clock_32k_context
        ((List.range 129).map (fun k => 1000 + 28 * k))).received_half_bits = 0 ∧
    (feed_edges clock_32k_context
        ((List.range 129).map (fun k => 1000 + 28 * k))).received_half_bits
      ≠ (List.replicate 128 Branch.long).count Branch.short +
          2 * (List.replicate 128 Branch.long).count Branch.long := by
  decide

/-- C17. For every clock rate below `2^32`, each delay that
`manchester_bitbang_configure` stores is at least the exact duration in ticks:
`t * 10^9 >= cps * n` for the four durations in nanoseconds and
`t * 10^6 >= cps * 5500` for the reset threshold in microseconds. -/
theorem configure_never_short (cps : Nat) (context : manchester_bitbang)
    (hc : cps < 4294967296) :
    (manchester_bitbang_configure cps context).2.delays T_HALF_BIT * 10 ^ 9 ≥ cps * 416667 ∧
    (manchester_bitbang_configure cps context).2.delays T_3TO4_BIT * 10 ^ 9 ≥ cps * 625000 ∧
    (manchester_bitbang_configure cps context).2.delays T_FULL_BIT * 10 ^ 9 ≥ cps * 833333 ∧
    (manchester_bitbang_configure cps context).2.delays T_STOP_BIT * 10 ^ 9 ≥ cps * 5500000 ∧
    (manchester_bitbang_configure cps context).2.delays T_BACKWARD_STOP_MIN * 10 ^ 6
      ≥ cps * 5500 := by
  obtain ⟨e1, e2, e3, e4, e5⟩ := configure_delays cps context hc
  rw [e1, e2, e3, e4, e5]
  norm_num
  refine ⟨by omega, by omega, by omega, by omega, by omega⟩

theorem configure_never_short_witness :
    ((32768 : Nat) < 4294967296) ∧
    ((manchester_bitbang_configure 32768 zero_context).2.delays T_HALF_BIT * 10 ^ 9
      ≥ 32768 * 416667 ∧
    (manchester_bitbang_configure 32768 zero_context).2.delays T_3TO4_BIT * 10 ^ 9
      ≥ 32768 * 625000 ∧
    (manchester_bitbang_configure 32768 zero_context).2.delays T_FULL_BIT * 10 ^ 9
      ≥ 32768 * 833333 ∧
    (manchester_bitbang_configure 32768 zero_context).2.delays T_STOP_BIT * 10 ^ 9
      ≥ 32768 * 5500000 ∧
    (manchester_bitbang_configure 32768 zero_context).2.delays T_BACKWARD_STOP_MIN * 10 ^ 6
      ≥ 32768 * 5500) :=
  ⟨by decide, configure_never_short 32768 zero_context (by decide)⟩

/-! ## One bit per bit period, clock shifts and the single bit -/

theorem rx_branch_short (context : manchester_bitbang) (now : Nat)
    (h : rx_branch context now = Branch.short) :
    ¬ sub32 now context.last > context.delays T_BACKWARD_STOP_MIN ∧
    ¬ sub32 now context.last > context.delays T_3TO4_BIT := by
  unfold rx_branch delay_branch at h
  split_ifs at h with h1 h2
  exact ⟨h1, h2⟩

theorem rx_branch_long (context : manchester_bitbang) (now : Nat)
    (h : rx_branch context now = Branch.long) :
    ¬ sub32 now context.last > context.delays T_BACKWARD_STOP_MIN ∧
    sub32 now context.last > context.delays T_3TO4_BIT := by
  unfold rx_branch delay_branch at h
  split_ifs at h with h1 h2
  exact ⟨h1, h2⟩

theorem rx_branch_reset (context : manchester_bitbang) (now : Nat)
    (h : rx_branch context now = Branch.reset) :
    sub32 now context.last > context.delays T_BACKWARD_STOP_MIN := by
  unfold rx_branch delay_branch at h
  split_ifs at h with h1 h2
  exact h1

/-- The buffer, the bit and the count after a short interval. -/
theorem toggle_rx_short_fields (context : manchester_bitbang) (now : Nat)
    (h : rx_branch context now = Branch.short) :
    (manchester_bitbang_toggle_rx context now).rx_buf =
      (if u8 (context.received_half_bits + 1) % 2 = 1 then
        u16 (u16 (context.rx_buf <<< 1) ||| context.last_bit)
      else context.rx_buf) ∧
    (manchester_bitbang_toggle_rx context now).last_bit = context.last_bit ∧
    (manchester_bitbang_toggle_rx context now).received_half_bits
      = u8 (context.received_half_bits + 1) := by
  obtain ⟨h1, h2⟩ := rx_branch_short context now h
  rw [toggle_rx_of_short context now h1 h2]
  exact ⟨rfl, rfl, rfl⟩

/-- The buffer, the bit and the count after a long interval. -/
theorem toggle_rx_long_fields (context : manchester_bitbang) (now : Nat)
    (h : rx_branch context now = Branch.long) :
    (manchester_bitbang_toggle_rx context now).rx_buf =
      u16 (u16 (context.rx_buf <<< 1) ||| lnot8 context.last_bit) ∧
    (manchester_bitbang_toggle_rx context now).last_bit = lnot8 context.last_bit ∧
    (manchester_bitbang_toggle_rx context now).received_half_bits
      = u8 (context.received_half_bits + 2) := by
  obtain ⟨h1, h2⟩ := rx_branch_long context now h
  rw [toggle_rx_of_long context now h1 h2]
  exact ⟨rfl, rfl, rfl⟩

/-- C18. For every receiver state with `last_bit` 0 or 1: two short intervals in
a row shift `rx_buf` by one place in all, put the unchanged `last_bit` in the
low place and add 2 to `received_half_bits` modulo 256, whatever the parity of
the count; one long interval shifts `rx_buf` by one place and adds 2 to the
count as well, but puts the complement of `last_bit` in the low place and
keeps it as the new `last_bit`. The state of the two short intervals and the
state of the long interval are any two states: neither constrains the table of
the other. -/
theorem bit_per_period (context c2 : manchester_bitbang) (t1 t2 t3 : Nat)
    (hlb : context.last_bit = 0 ∨ context.last_bit = 1)
    (hlb2 : c2.last_bit = 0 ∨ c2.last_bit = 1)
    (h1 : rx_branch context t1 = Branch.short)
    (h2 : rx_branch (manchester_bitbang_toggle_rx context t1) t2 = Branch.short)
    (h3 : rx_branch c2 t3 = Branch.long) :
    ((manchester_bitbang_toggle_rx (manchester_bitbang_toggle_rx context t1) t2).rx_buf
        = ((context.rx_buf <<< 1) ||| context.last_bit) % 2 ^ 16 ∧
      (manchester_bitbang_toggle_rx (manchester_bitbang_toggle_rx context t1) t2).last_bit
        = context.last_bit ∧
      (manchester_bitbang_toggle_rx (manchester_bitbang_toggle_rx context t1) t2).received_half_bits
        = (context.received_half_bits + 2) % 256) ∧
    ((manchester_bitbang_toggle_rx c2 t3).rx_buf
        = ((c2.rx_buf <<< 1) ||| (1 - c2.last_bit)) % 2 ^ 16 ∧
      (manchester_bitbang_toggle_rx c2 t3).last_bit = 1 - c2.last_bit ∧
      (manchester_bitbang_toggle_rx c2 t3).received_half_bits
        = (c2.received_half_bits + 2) % 256) := by
  obtain ⟨a1, a2, a3⟩ := toggle_rx_short_fields context t1 h1
  obtain ⟨b1, b2, b3⟩ := toggle_rx_short_fields (manchester_bitbang_toggle_rx context t1) t2 h2
  obtain ⟨l1, l2, l3⟩ := toggle_rx_long_fields c2 t3 h3
  have hl : lnot8 c2.last_bit = 1 - c2.last_bit := by
    unfold lnot8
    rcases hlb2 with h | h <;> simp [h]
  refine ⟨⟨?_, by rw [b2, a2], ?_⟩, ⟨?_, by rw [l2, hl], by rw [l3]; rfl⟩⟩
  · rw [b1, a1, a2, a3, ← u16_or_u16]
    by_cases hp : u8 (context.received_half_bits + 1) % 2 = 1
    · have hq : ¬ u8 (u8 (context.received_half_bits + 1) + 1) % 2 = 1 := by
        unfold u8 at hp ⊢; omega
      rw [if_neg hq, if_pos hp]
    · have hq : u8 (u8 (context.received_half_bits + 1) + 1) % 2 = 1 := by
        unfold u8 at hp ⊢; omega
      rw [if_pos hq, if_neg hp]
  · rw [b3, a3]
    unfold u8
    omega
  · rw [l1, hl, u16_or_u16]

theorem bit_per_period_witness :
    ((busy_context.last_bit = 0 ∨ busy_context.last_bit = 1) ∧
      (busy_context.last_bit = 0 ∨ busy_context.last_bit = 1) ∧
      rx_branch busy_context 5014 = Branch.short ∧
      rx_branch (manchester_bitbang_toggle_rx busy_context 5014) 5028 = Branch.short ∧
      rx_branch busy_context 5028 = Branch.long) ∧
    (((manchester_bitbang_toggle_rx (manchester_bitbang_toggle_rx busy_context 5014) 5028).rx_buf
        = ((busy_context.rx_buf <<< 1) ||| busy_context.last_bit) % 2 ^ 16 ∧
      (manchester_bitbang_toggle_rx (manchester_bitbang_toggle_rx busy_context 5014) 5028).last_bit
        = busy_context.last_bit ∧
      (manchester_bitbang_toggle_rx
          (manchester_bitbang_toggle_rx busy_context 5014) 5028).received_half_bits
        = (busy_context.received_half_bits + 2) % 256) ∧
    ((manchester_bitbang_toggle_rx busy_context 5028).rx_buf
        = ((busy_context.rx_buf <<< 1) ||| (1 - busy_context.last_bit)) % 2 ^ 16 ∧
      (manchester_bitbang_toggle_rx busy_context 5028).last_bit = 1 - busy_context.last_bit ∧
      (manchester_bitbang_toggle_rx busy_context 5028).received_half_bits
        = (busy_context.received_half_bits + 2) % 256)) :=
  ⟨by decide, bit_per_period busy_context busy_context 5014 5028 5028 (by decide) (by decide)
    (by decide) (by decide) (by decide)⟩

theorem sub32_shift (now last k : Nat) :
    sub32 (u32 (now + k)) (u32 (last + k)) = sub32 now last := by
  unfold sub32 u32
  omega

/-- C19. The receiver does not see a shift of the 32-bit clock: with `last` and
`now` both moved by `k` ticks modulo `2^32`, `manchester_bitbang_toggle_rx`
gives the same `rx_buf`, `rx_buf_rdy`, `received_half_bits` and `last_bit`, its
new `last` is the old one moved by `k`, it takes the same branch, and the
fields it gives depend on the two timestamps only through
`(now - last) mod 2^32`. -/
theorem toggle_rx_shift_invariant (context : manchester_bitbang) (now k : Nat) :
    rx_of (manchester_bitbang_toggle_rx
        { context with last := u32 (context.last + k) } (u32 (now + k)))
      = rx_of (manchester_bitbang_toggle_rx context now) ∧
    (manchester_bitbang_toggle_rx
        { context with last := u32 (context.last + k) } (u32 (now + k))).last
      = u32 ((manchester_bitbang_toggle_rx context now).last + k) ∧
    rx_branch { context with last := u32 (context.last + k) } (u32 (now + k))
      = rx_branch context now ∧
    rx_of (manchester_bitbang_toggle_rx context now)
      = rx_update
          (delay_branch context.delays
            ((((now : Int) - (context.last : Int)) % 4294967296).toNat))
          (rx_of context) := by
  have hb : rx_branch { context with last := u32 (context.last + k) } (u32 (now + k))
      = rx_branch context now := by
    simp only [rx_branch, sub32_shift]
  refine ⟨?_, ?_, hb, ?_⟩
  · rw [rx_of_toggle_rx, rx_of_toggle_rx, hb]
    rfl
  · rw [toggle_rx_last, toggle_rx_last]
  · rw [rx_of_toggle_rx, rx_branch, sub32_eq_emod]

theorem lnot8_le (x : Nat) : lnot8 x = 0 ∨ lnot8 x = 1 := by
  unfold lnot8
  split_ifs
  · exact Or.inr rfl
  · exact Or.inl rfl

/-- After a call that takes the reset or the long branch `last_bit` is 0 or 1. -/
theorem last_bit_of_not_short (context : manchester_bitbang) (now : Nat)
    (h : rx_branch context now ≠ Branch.short) :
    (manchester_bitbang_toggle_rx context now).last_bit = 0 ∨
    (manchester_bitbang_toggle_rx context now).last_bit = 1 := by
  cases hk : rx_branch context now with
  | reset =>
      rw [toggle_rx_of_reset context now (rx_branch_reset context now hk)]
      exact Or.inr rfl
  | long =>
      rw [(toggle_rx_long_fields context now hk).2.1]
      exact lnot8_le _
  | short => exact absurd hk h

/-- A call keeps `last_bit` 0 or 1. -/
theorem last_bit_kept (context : manchester_bitbang) (now : Nat)
    (h : context.last_bit = 0 ∨ context.last_bit = 1) :
    (manchester_bitbang_toggle_rx context now).last_bit = 0 ∨
    (manchester_bitbang_toggle_rx context now).last_bit = 1 := by
  by_cases hk : rx_branch context now = Branch.short
  · rw [(toggle_rx_short_fields context now hk).2.1]
    exact h
  · exact last_bit_of_not_short context now hk

theorem last_bit_feed_edges (ts : List Nat) :
    ∀ (context : manchester_bitbang), (context.last_bit = 0 ∨ context.last_bit = 1) →
      ((feed_edges context ts).last_bit = 0 ∨ (feed_edges context ts).last_bit = 1) := by
  induction ts with
  | nil => intro context h; exact h
  | cons t ts ih =>
      intro context h
      exact ih (manchester_bitbang_toggle_rx context t) (last_bit_kept context t h)

/-- In every state reached from a reset `last_bit` is 0 or 1. -/
theorem last_bit_after_reset (context : manchester_bitbang) (t0 : Nat) (ts : List Nat)
    (h : rx_branch context t0 = Branch.reset) :
    (feed_edges context (t0 :: ts)).last_bit = 0 ∨
    (feed_edges context (t0 :: ts)).last_bit = 1 := by
  have h0 : rx_branch context t0 ≠ Branch.short := by rw [h]; decide
  exact last_bit_feed_edges ts _ (last_bit_of_not_short context t0 h0)

/-- A bit of 0 or 1 put in the low place of the shifted buffer changes no other
place and is read back from the low place. -/
theorem commit_low_bit (r v : Nat) (hv : v = 0 ∨ v = 1) :
    u16 (u16 (r <<< 1) ||| v) >>> 1 = u16 (r <<< 1) >>> 1 ∧
    u16 (u16 (r <<< 1) ||| v) &&& 1 = v := by
  have hv1 : v ≤ 1 := by omega
  have e : u16 (r <<< 1) = (2 * r) % 65536 := by
    rw [Nat.shiftLeft_eq, pow_one, Nat.mul_comm]
    rfl
  rw [commit_rx_buf r v hv1, e, Nat.and_one_is_mod, Nat.shiftRight_eq_div_pow,
    Nat.shiftRight_eq_div_pow, pow_one]
  constructor <;> omega

/-- C20. `last_bit` stays a single bit: a call of `manchester_bitbang_toggle_rx`
keeps it 0 or 1, and makes it 0 or 1 from any value when it takes the reset or
the long branch. So in a state reached from a reset, a call that commits a bit
(a long interval, or a short one that makes the count odd) changes only the low
place of the shifted `rx_buf`, and leaves `rx_buf & 1 = last_bit`. -/
theorem last_bit_single (c1 c2 c3 : manchester_bitbang) (n1 n2 t0 t : Nat) (ts : List Nat)
    (h1 : c1.last_bit = 0 ∨ c1.last_bit = 1)
    (h2 : rx_branch c2 n2 ≠ Branch.short)
    (h3 : rx_branch c3 t0 = Branch.reset)
    (h4 : rx_branch (feed_edges c3 (t0 :: ts)) t = Branch.long ∨
      (rx_branch (feed_edges c3 (t0 :: ts)) t = Branch.short ∧
        u8 ((feed_edges c3 (t0 :: ts)).received_half_bits + 1) % 2 = 1)) :
    ((manchester_bitbang_toggle_rx c1 n1).last_bit = 0 ∨
      (manchester_bitbang_toggle_rx c1 n1).last_bit = 1) ∧
    ((manchester_bitbang_toggle_rx c2 n2).last_bit = 0 ∨
      (manchester_bitbang_toggle_rx c2 n2).last_bit = 1) ∧
    ((feed_edges c3 (t0 :: ts)).last_bit = 0 ∨ (feed_edges c3 (t0 :: ts)).last_bit = 1) ∧
    (manchester_bitbang_toggle_rx (feed_edges c3 (t0 :: ts)) t).rx_buf >>> 1
      = u16 ((feed_edges c3 (t0 :: ts)).rx_buf <<< 1) >>> 1 ∧
    (manchester_bitbang_toggle_rx (feed_edges c3 (t0 :: ts)) t).rx_buf &&& 1
      = (manchester_bitbang_toggle_rx (feed_edges c3 (t0 :: ts)) t).last_bit := by
  have hs := last_bit_after_reset c3 t0 ts h3
  refine ⟨last_bit_kept c1 n1 h1, last_bit_of_not_short c2 n2 h2, hs, ?_⟩
  rcases h4 with hl | ⟨hsh, hodd⟩
  · obtain ⟨a1, a2, _⟩ := toggle_rx_long_fields _ t hl
    rw [a1, a2]
    exact commit_low_bit _ _ (lnot8_le _)
  · obtain ⟨a1, a2, _⟩ := toggle_rx_short_fields _ t hsh
    rw [a1, a2, if_pos hodd]
    exact commit_low_bit _ _ hs

theorem last_bit_single_witness :
    ((busy_context.last_bit = 0 ∨ busy_context.last_bit = 1) ∧
      rx_branch { busy_context with last_bit := 7 } 5028 ≠ Branch.short ∧
      rx_branch clock_32k_context 1000 = Branch.reset ∧
      (rx_branch (feed_edges clock_32k_context (1000 :: [1014])) 1042 = Branch.long ∨
        (rx_branch (feed_edges clock_32k_context (1000 :: [1014])) 1042 = Branch.short ∧
          u8 ((feed_edges clock_32k_context (1000 :: [1014])).received_half_bits + 1) % 2
            = 1))) ∧
    (((manchester_bitbang_toggle_rx busy_context 5014).last_bit = 0 ∨
      (manchester_bitbang_toggle_rx busy_context 5014).last_bit = 1) ∧
    ((manchester_bitbang_toggle_rx { busy_context with last_bit := 7 } 5028).last_bit = 0 ∨
      (manchester_bitbang_toggle_rx { busy_context with last_bit := 7 } 5028).last_bit = 1) ∧
    ((feed_edges clock_32k_context (1000 :: [1014])).last_bit = 0 ∨
      (feed_edges clock_32k_context (1000 :: [1014])).last_bit = 1) ∧
    (manchester_bitbang_toggle_rx (feed_edges clock_32k_context (1000 :: [1014])) 1042).rx_buf
        >>> 1
      = u16 ((feed_edges clock_32k_context (1000 :: [1014])).rx_buf <<< 1) >>> 1 ∧
    (manchester_bitbang_toggle_rx (feed_edges clock_32k_context (1000 :: [1014])) 1042).rx_buf
        &&& 1
      = (manchester_bitbang_toggle_rx
          (feed_edges clock_32k_context (1000 :: [1014])) 1042).last_bit) :=
  ⟨by decide, last_bit_single busy_context { busy_context with last_bit := 7 }
    clock_32k_context 5014 5028 1000 1042 [1014] (by decide) (by decide) (by decide)
    (by decide)⟩

/-! ## No wrap in the tick conversion, and the busy-wait -/

/-- The macro result for a product and a result that do not wrap. -/
theorem u64_div_no_wrap (cps n d : Nat) (hc : cps < 4294967296)
    (hx : cps * n < 18446744073709551616) (hq : cps * n / d + 1 < 4294967296) :
    u64 (u64 cps * n) = cps * n ∧ u64 (u64 (u64 cps * n) / d + 1) = cps * n / d + 1 := by
  have hu : u64 cps = cps := Nat.mod_eq_of_lt (by omega)
  have h1 : u64 (cps * n) = cps * n := Nat.mod_eq_of_lt hx
  have h2 : u64 (cps * n / d + 1) = cps * n / d + 1 := Nat.mod_eq_of_lt (by omega)
  rw [hu, h1, h2]
  exact ⟨rfl, rfl⟩

/-- C21. For every clock rate `cps` below `2^32`, in
`manchester_bitbang_configure`: each product `cps * n` of the two macros is
below `2^64` (the `uint64_t` product is the mathematical one), each result
`floor(cps * n / divisor) + 1` is below `2^32` and is what the macro gives, and
the value stored in each 32-bit entry of `delays` is that mathematical value. -/
theorem configure_no_wrap (cps : Nat) (context : manchester_bitbang) (hc : cps < 4294967296) :
    (cps * 416667 < 2 ^ 64 ∧ cps * 625000 < 2 ^ 64 ∧ cps * 833333 < 2 ^ 64 ∧
      cps * 5500000 < 2 ^ 64 ∧ cps * 5500 < 2 ^ 64) ∧
    (u64 (u64 cps * 416667) = cps * 416667 ∧ u64 (u64 cps * 625000) = cps * 625000 ∧
      u64 (u64 cps * 833333) = cps * 833333 ∧ u64 (u64 cps * 5500000) = cps * 5500000 ∧
      u64 (u64 cps * 5500) = cps * 5500) ∧
    (cps * 416667 / 10 ^ 9 + 1 < 2 ^ 32 ∧ cps * 625000 / 10 ^ 9 + 1 < 2 ^ 32 ∧
      cps * 833333 / 10 ^ 9 + 1 < 2 ^ 32 ∧ cps * 5500000 / 10 ^ 9 + 1 < 2 ^ 32 ∧
      cps * 5500 / 10 ^ 6 + 1 < 2 ^ 32) ∧
    (NS_TO_SYS_CLOCK_HW_CYCLES cps 416667 = cps * 416667 / 10 ^ 9 + 1 ∧
      NS_TO_SYS_CLOCK_HW_CYCLES cps 625000 = cps * 625000 / 10 ^ 9 + 1 ∧
      NS_TO_SYS_CLOCK_HW_CYCLES cps 833333 = cps * 833333 / 10 ^ 9 + 1 ∧
      NS_TO_SYS_CLOCK_HW_CYCLES cps 5500000 = cps * 5500000 / 10 ^ 9 + 1 ∧
      US_TO_SYS_CLOCK_HW_CYCLES cps 5500 = cps * 5500 / 10 ^ 6 + 1) ∧
    ((manchester_bitbang_configure cps context).2.delays T_HALF_BIT
        = cps * 416667 / 10 ^ 9 + 1 ∧
      (manchester_bitbang_configure cps context).2.delays T_3TO4_BIT
        = cps * 625000 / 10 ^ 9 + 1 ∧
      (manchester_bitbang_configure cps context).2.delays T_FULL_BIT
        = cps * 833333 / 10 ^ 9 + 1 ∧
      (manchester_bitbang_configure cps context).2.delays T_STOP_BIT
        = cps * 5500000 / 10 ^ 9 + 1 ∧
      (manchester_bitbang_configure cps context).2.delays T_BACKWARD_STOP_MIN
        = cps * 5500 / 10 ^ 6 + 1) := by
  have p1 : cps * 416667 < 18446744073709551616 := by omega
  have p2 : cps * 625000 < 18446744073709551616 := by omega
  have p3 : cps * 833333 < 18446744073709551616 := by omega
  have p4 : cps * 5500000 < 18446744073709551616 := by omega
  have p5 : cps * 5500 < 18446744073709551616 := by omega
  have q1 : cps * 416667 / 1000000000 + 1 < 4294967296 := by omega
  have q2 : cps * 625000 / 1000000000 + 1 < 4294967296 := by omega
  have q3 : cps * 833333 / 1000000000 + 1 < 4294967296 := by omega
  have q4 : cps * 5500000 / 1000000000 + 1 < 4294967296 := by omega
  have q5 : cps * 5500 / 1000000 + 1 < 4294967296 := by omega
  obtain ⟨a1, b1⟩ := u64_div_no_wrap cps 416667 1000000000 hc p1 q1
  obtain ⟨a2, b2⟩ := u64_div_no_wrap cps 625000 1000000000 hc p2 q2
  obtain ⟨a3, b3⟩ := u64_div_no_wrap cps 833333 1000000000 hc p3 q3
  obtain ⟨a4, b4⟩ := u64_div_no_wrap cps 5500000 1000000000 hc p4 q4
  obtain ⟨a5, b5⟩ := u64_div_no_wrap cps 5500 1000000 hc p5 q5
  have e := configure_delays cps context hc
  norm_num only
  exact ⟨⟨p1, p2, p3, p4, p5⟩, ⟨a1, a2, a3, a4, a5⟩, ⟨q1, q2, q3, q4, q5⟩,
    ⟨b1, b2, b3, b4, b5⟩, e⟩

theorem configure_no_wrap_witness :
    ((4294967295 : Nat) < 4294967296) ∧
    ((4294967295 * 416667 < 2 ^ 64 ∧ 4294967295 * 625000 < 2 ^ 64 ∧ 4294967295 * 833333 < 2 ^ 64 ∧
      4294967295 * 5500000 < 2 ^ 64 ∧ 4294967295 * 5500 < 2 ^ 64) ∧
    (u64 (u64 4294967295 * 416667) = 4294967295 * 416667 ∧ u64 (u64 4294967295 * 625000) = 4294967295 * 625000 ∧
      u64 (u64 4294967295 * 833333) = 4294967295 * 833333 ∧ u64 (u64 4294967295 * 5500000) = 4294967295 * 5500000 ∧
      u64 (u64 4294967295 * 5500) = 4294967295 * 5500) ∧
    (4294967295 * 416667 / 10 ^ 9 + 1 < 2 ^ 32 ∧ 4294967295 * 625000 / 10 ^ 9 + 1 < 2 ^ 32 ∧
      4294967295 * 833333 / 10 ^ 9 + 1 < 2 ^ 32 ∧ 4294967295 * 5500000 / 10 ^ 9 + 1 < 2 ^ 32 ∧
      4294967295 * 5500 / 10 ^ 6 + 1 < 2 ^ 32) ∧
    (NS_TO_SYS_CLOCK_HW_CYCLES 4294967295 416667 = 4294967295 * 416667 / 10 ^ 9 + 1 ∧
      NS_TO_SYS_CLOCK_HW_CYCLES 4294967295 625000 = 4294967295 * 625000 / 10 ^ 9 + 1 ∧
      NS_TO_SYS_CLOCK_HW_CYCLES 4294967295 833333 = 4294967295 * 833333 / 10 ^ 9 + 1 ∧
      NS_TO_SYS_CLOCK_HW_CYCLES 4294967295 5500000 = 4294967295 * 5500000 / 10 ^ 9 + 1 ∧
      US_TO_SYS_CLOCK_HW_CYCLES 4294967295 5500 = 4294967295 * 5500 / 10 ^ 6 + 1) ∧
    ((manchester_bitbang_configure 4294967295 zero_context).2.delays T_HALF_BIT
        = 4294967295 * 416667 / 10 ^ 9 + 1 ∧
      (manchester_bitbang_configure 4294967295 zero_context).2.delays T_3TO4_BIT
        = 4294967295 * 625000 / 10 ^ 9 + 1 ∧
      (manchester_bitbang_configure 4294967295 zero_context).2.delays T_FULL_BIT
        = 4294967295 * 833333 / 10 ^ 9 + 1 ∧
      (manchester_bitbang_configure 4294967295 zero_context).2.delays T_STOP_BIT
        = 4294967295 * 5500000 / 10 ^ 9 + 1 ∧
      (manchester_bitbang_configure 4294967295 zero_context).2.delays T_BACKWARD_STOP_MIN
        = 4294967295 * 5500 / 10 ^ 6 + 1)) :=
  ⟨by decide, configure_no_wrap 4294967295 zero_context (by decide)⟩

theorem delay_loop_some_iff (start n : Nat) (rs : List Nat) :
    ∀ (i : Nat), manchester_delay_loop start n rs = some i ↔
      (i < rs.length ∧ n ≤ sub32 (rs.getD i 0) start ∧
        ∀ j, j < i → sub32 (rs.getD j 0) start < n) := by
  induction rs with
  | nil => intro i; simp [manchester_delay_loop]
  | cons r rs ih =>
      intro i
      by_cases hr : sub32 r start < n
      · simp only [manchester_delay_loop, if_pos hr, Option.map_eq_some']
        constructor
        · rintro ⟨k, hk, rfl⟩
          obtain ⟨k1, k2, k3⟩ := (ih k).mp hk
          refine ⟨by simp only [List.length_cons]; omega, by simpa using k2, ?_⟩
          intro j hj
          cases j with
          | zero => simpa using hr
          | succ j => simpa using k3 j (by omega)
        · rintro ⟨h1, h2, h3⟩
          cases i with
          | zero =>
              simp only [List.getD_cons_zero] at h2
              omega
          | succ k =>
              refine ⟨k, (ih k).mpr ⟨by simp only [List.length_cons] at h1; omega,
                by simpa using h2, ?_⟩, rfl⟩
              intro j hj
              simpa using h3 (j + 1) (by omega)
      · simp only [manchester_delay_loop, if_neg hr, Option.some.injEq]
        constructor
        · intro h0
          subst h0
          refine ⟨by simp, by simpa using hr, ?_⟩
          intro j hj
          omega
        · rintro ⟨_, _, h3⟩
          cases i with
          | zero => rfl
          | succ k =>
              have := h3 0 (by omega)
              simp only [List.getD_cons_zero] at this
              omega

theorem delay_loop_isSome_iff (start n : Nat) (rs : List Nat) :
    (manchester_delay_loop start n rs).isSome ↔ ∃ r ∈ rs, n ≤ sub32 r start := by
  induction rs with
  | nil => simp [manchester_delay_loop]
  | cons r rs ih =>
      by_cases hr : sub32 r start < n
      · simp only [manchester_delay_loop, if_pos hr, Option.isSome_map', ih, List.mem_cons,
          exists_eq_or_imp]
        constructor
        · intro h; exact Or.inr h
        · rintro (h | h)
          · omega
          · exact h
      · simp only [manchester_delay_loop, if_neg hr, Option.isSome_some, List.mem_cons,
          exists_eq_or_imp, true_iff]
        exact Or.inl (by omega)

theorem delay_loop_take_none (start n : Nat) (rs : List Nat) :
    ∀ (i k : Nat), (∀ j, j < i → sub32 (rs.getD j 0) start < n) → k ≤ i →
      manchester_delay_loop start n (rs.take k) = none := by
  induction rs with
  | nil => intro i k _ _; simp [manchester_delay_loop]
  | cons r rs ih =>
      intro i k h hk
      cases k with
      | zero => simp [manchester_delay_loop]
      | succ k =>
          have hr : sub32 r start < n := by simpa using h 0 (by omega)
          have hrest := ih (i - 1) k (fun j hj => by simpa using h (j + 1) (by omega)) (by omega)
          simp only [List.take_succ_cons, manchester_delay_loop, if_pos hr, hrest, Option.map_none']

/-- C22. The busy-wait never returns early. For every count `n`, every first
reading `start` and every sequence `rs` of later readings: when reading `i` is
the first with `(r - start) mod 2^32 >= n`, `manchester_delay` returns at
reading `i`, and it has not returned on any shorter run of these readings; and
on any sequence of readings it returns if and only if a reading with
`(r - start) mod 2^32 >= n` occurs in it. -/
theorem manchester_delay_never_early (n start : Nat) (rs : List Nat) (i : Nat)
    (hi : i < rs.length)
    (hge : n ≤ sub32 (rs.getD i 0) start)
    (hlt : ∀ j, j < i → sub32 (rs.getD j 0) start < n) :
    manchester_delay_readings n (start :: rs) = some i ∧
    (∀ k, k ≤ i → manchester_delay_readings n (start :: rs.take k) = none) ∧
    (∀ (qs : List Nat),
      (manchester_delay_readings n (start :: qs)).isSome ↔ ∃ r ∈ qs, n ≤ sub32 r start) := by
  refine ⟨?_, ?_, ?_⟩
  · exact (delay_loop_some_iff start n rs i).mpr ⟨hi, hge, hlt⟩
  · intro k hk
    exact delay_loop_take_none start n rs i k hlt hk
  · intro qs
    exact delay_loop_isSome_iff start n qs

theorem manchester_delay_never_early_witness :
    ((3 : Nat) < [4294967294, 3, 8, 9, 20].length ∧
      14 ≤ sub32 ([4294967294, 3, 8, 9, 20].getD 3 0) 4294967291 ∧
      (∀ j, j < 3 → sub32 ([4294967294, 3, 8, 9, 20].getD j 0) 4294967291 < 14)) ∧
    (manchester_delay_readings 14 (4294967291 :: [4294967294, 3, 8, 9, 20]) = some 3 ∧
    (∀ k, k ≤ 3 →
      manchester_delay_readings 14 (4294967291 :: [4294967294, 3, 8, 9, 20].take k) = none) ∧
    (∀ (qs : List Nat),
      (manchester_delay_readings 14 (4294967291 :: qs)).isSome ↔
        ∃ r ∈ qs, 14 ≤ sub32 r 4294967291)) :=
  ⟨by decide, manchester_delay_never_early 14 4294967291 [4294967294, 3, 8, 9, 20] 3
    (by decide) (by decide) (by decide)⟩

end Manchester
